import Mathlib

/-!
Shallow embedding of the data-cleaning pipeline of DataDoctorPro
(`cleanData` in `server/routes.ts`), together with models of the
JavaScript primitives it relies on (`Number`, `parseFloat`, `parseInt`,
`JSON.stringify`-based row equality, object key ordering, stable sort).
JavaScript numbers are modelled as rationals, with a separate `nan`
marker; runtime exceptions are modelled with `Except`.
-/

/- Rational arithmetic in Batteries is marked irreducible, which blocks
evaluation of concrete pipeline runs inside `decide`; restore the
default reducibility for it. -/
attribute [local semireducible] Rat.add Rat.sub Rat.mul Rat.inv

/-- Model of a JavaScript cell value as produced by the CSV/XLSX readers
and manipulated by the pipeline: strings, finite numbers (as rationals),
NaN, null and undefined. -/
inductive Value where
  | str : String → Value
  | num : ℚ → Value
  | nan : Value
  | null : Value
  | undef : Value
deriving DecidableEq

/-- A row object: insertion-ordered association list from property name
to value, modelling a plain JS object. -/
abbrev Row := List (String × Value)

/-- A dataset: ordered list of row objects. -/
abbrev Dataset := List Row

/-- Property read `row[k]`: the first binding of `k`, or `undefined`
when the key is absent. -/
def getV (row : Row) (k : String) : Value :=
  match row.find? (fun p => p.1 = k) with
  | some p => p.2
  | none => Value.undef

/-- Property write `{...row, [k]: v}` / `row[k] = v`: overwrite the first
binding of `k` in place, or append a fresh binding at the end, matching
JS object key-insertion order. -/
def setV (row : Row) (k : String) (v : Value) : Row :=
  match row with
  | [] => [(k, v)]
  | (k', v') :: rest => if k' = k then (k, v) :: rest else (k', v') :: setV rest k v

/-- Model of `Object.keys`: property names in insertion order. -/
def keysOf (row : Row) : List String := row.map Prod.fst

/-- The pipeline's missing-value test: `v === null || v === undefined
|| v === ""`. -/
def isMissingV (v : Value) : Bool :=
  v = Value.null ∨ v = Value.undef ∨ v = Value.str ""

/-- JS truthiness restricted to the cell values the pipeline sees. -/
def truthy (v : Value) : Bool :=
  match v with
  | Value.str s => s ≠ ""
  | Value.num q => q ≠ 0
  | Value.nan => false
  | Value.null => false
  | Value.undef => false

/-- Characters treated as whitespace by the regex `\s` (ASCII part). -/
def jsWs (c : Char) : Bool :=
  c = ' ' ∨ c = '\t' ∨ c = '\n' ∨ c = '\r' ∨ c = '\x0b' ∨ c = '\x0c'

/-- Regex word character `\w`: ASCII letters, digits and underscore. -/
def wordChar (c : Char) : Bool :=
  c.isAlphanum ∨ c = '_'

/-- Replace each maximal run of whitespace by a single underscore,
modelling `.replace(/\s+/g, "_")`; the flag records whether the previous
character was part of a whitespace run. -/
def collapseWsAux : Bool → List Char → List Char
  | _, [] => []
  | prevWs, c :: rest =>
    if jsWs c then
      (if prevWs then [] else ['_']) ++ collapseWsAux true rest
    else
      c :: collapseWsAux false rest

/-- Model of `toLowerCase` on one character (ASCII range, which is all
the column names the pipeline sees use). -/
def lowerChar (c : Char) : Char :=
  if 'A' ≤ c ∧ c ≤ 'Z' then Char.ofNat (c.toNat + 32) else c

/-- Column-name transform of the standardizer: lowercase, collapse
whitespace runs to `_`, strip non-word characters
(`.toLowerCase().replace(/\s+/g,"_").replace(/[^\w_]/g,"")`). -/
def cleanName (s : String) : String :=
  String.mk ((collapseWsAux false (s.toList.map lowerChar)).filter wordChar)

/-- Numeric value of a list of decimal digit characters. -/
def digitsVal (l : List Char) : Nat :=
  l.foldl (fun acc c => acc * 10 + (c.toNat - '0'.toNat)) 0

/-- Fractional value contributed by digit characters after a decimal
point. -/
def fracVal (l : List Char) : ℚ :=
  l.foldr (fun c acc => ((c.toNat - '0'.toNat : ℕ) + acc) / 10) 0

/-- Strict full-string decimal parse used to model `Number(s)` on a
trimmed non-empty string: optional sign, then digits with an optional
fractional part (`"12"`, `"12."`, `".5"`, `"+3.25"`). Exponent and hex
forms are outside the model and treated as unparseable. -/
def parseDecimal (l : List Char) : Option ℚ :=
  let core : List Char → Option ℚ := fun l =>
    let intPart := l.takeWhile Char.isDigit
    let rest := l.dropWhile Char.isDigit
    match rest with
    | [] => if intPart = [] then none else some (digitsVal intPart)
    | '.' :: fracChars =>
      if fracChars.all Char.isDigit ∧ (intPart ≠ [] ∨ fracChars ≠ []) then
        some (digitsVal intPart + fracVal fracChars)
      else none
    | _ => none
  match l with
  | '+' :: rest => core rest
  | '-' :: rest => (core rest).map Neg.neg
  | _ => core l

/-- Model of the `Number(v)` coercion, returning `none` for NaN.
Whitespace-only and empty strings coerce to `0`; `null` is `0`;
`undefined` and NaN are NaN. -/
def numberOf (v : Value) : Option ℚ :=
  match v with
  | Value.str s =>
    let t := (s.toList.dropWhile jsWs).reverse.dropWhile jsWs |>.reverse
    if t = [] then some 0 else parseDecimal t
  | Value.num q => some q
  | Value.nan => none
  | Value.null => some 0
  | Value.undef => none

/-- Longest numeric prefix accepted by `parseFloat` after the optional
sign: digits, optionally a decimal point and more digits. Returns `none`
when no digit is consumed. -/
def floatPfx (l : List Char) : Option ℚ :=
  let intPart := l.takeWhile Char.isDigit
  let rest := l.dropWhile Char.isDigit
  match rest with
  | '.' :: fracRest =>
    let fracChars := fracRest.takeWhile Char.isDigit
    if intPart = [] ∧ fracChars = [] then none
    else some (digitsVal intPart + fracVal fracChars)
  | _ => if intPart = [] then none else some (digitsVal intPart)

/-- Model of `parseFloat(v)`: skip leading whitespace, optional sign,
parse the longest numeric prefix; `none` models NaN. On a finite number
it is the identity (round-trip through `String(q)`); `null`, `undefined`
and NaN stringify to unparseable text. -/
def jsParseFloat (v : Value) : Option ℚ :=
  match v with
  | Value.str s =>
    match s.toList.dropWhile jsWs with
    | '+' :: rest => floatPfx rest
    | '-' :: rest => (floatPfx rest).map Neg.neg
    | l => floatPfx l
  | Value.num q => some q
  | Value.nan => none
  | Value.null => none
  | Value.undef => none

/-- Model of `parseInt(v)` (base 10): skip whitespace, optional sign,
longest digit prefix; on a finite number it truncates toward zero. -/
def jsParseInt (v : Value) : Option ℤ :=
  match v with
  | Value.str s =>
    let core : List Char → Option ℤ := fun l =>
      let d := l.takeWhile Char.isDigit
      if d = [] then none else some (digitsVal d)
    match s.toList.dropWhile jsWs with
    | '+' :: rest => core rest
    | '-' :: rest => (core rest).map Neg.neg
    | l => core l
  | Value.num q => some (q.num.tdiv (q.den : ℤ))
  | Value.nan => none
  | Value.null => none
  | Value.undef => none

/-- Decimal digit characters of a natural number (most significant
first); the fuel argument dominates the number of divisions by ten. -/
def natChars : Nat → Nat → List Char
  | 0, _ => []
  | fuel + 1, n => if n < 10 then [Nat.digitChar n] else natChars fuel (n / 10) ++ [Nat.digitChar (n % 10)]

/-- Canonical decimal string of a natural number. -/
def natToStr (n : Nat) : String := String.mk (natChars (n + 1) n)

/-- Canonical decimal string of an integer. -/
def intToStr (i : ℤ) : String :=
  if i < 0 then "-" ++ natToStr (-i).toNat else natToStr i.toNat

/-- Decimal expansion digits of a proper fraction `r / d`, up to the
given fuel. -/
def fracChars : Nat → Nat → Nat → List Char
  | 0, _, _ => []
  | _ + 1, 0, _ => []
  | fuel + 1, r, d => Nat.digitChar (r * 10 / d) :: fracChars fuel (r * 10 % d) d

/-- Model of JS number-to-string conversion `String(q)` for the finite
numbers the pipeline produces: canonical integer form when the value is
integral, otherwise integer part, a point, and the decimal expansion of
the fractional part (bounded length). -/
def renderNum (q : ℚ) : String :=
  if q < 0 then "-" ++ renderNum (-q)
  else if q.den = 1 then natToStr q.num.toNat
  else
    let ip := q.floor.toNat
    let fr := q - q.floor
    natToStr ip ++ "." ++ String.mk (fracChars 20 fr.num.toNat fr.den)
termination_by (if q < 0 then 1 else 0)
decreasing_by
  rename_i h
  have h2 : ¬ (-q < 0) := by simp; exact le_of_lt h
  simp [h, h2]

/-- String form a value takes when used as a JS object key. -/
def keyString (v : Value) : String :=
  match v with
  | Value.str s => s
  | Value.num q => renderNum q
  | Value.nan => "NaN"
  | Value.null => "null"
  | Value.undef => "undefined"

/-- Insert `a` into `l`, keeping every element that must come strictly
earlier (per `lt`) before it; among ties the inserted element goes
first, which together with `sortBy` processing from the right yields a
stable sort, modelling `Array.prototype.sort`. -/
def insertBy (lt : α → α → Bool) (a : α) : List α → List α
  | [] => [a]
  | b :: l => if lt b a then b :: insertBy lt a l else a :: b :: l

/-- Stable sort by the strict precedence predicate `lt`. -/
def sortBy (lt : α → α → Bool) : List α → List α
  | [] => []
  | a :: l => insertBy lt a (sortBy lt l)

/-- Increment the count of key `k` in an insertion-ordered association
list, modelling `acc[k] = (acc[k] || 0) + 1` in a `reduce`. -/
def bump [DecidableEq K] (k : K) : List (K × Nat) → List (K × Nat)
  | [] => [(k, 1)]
  | (k', n) :: rest => if k' = k then (k', n + 1) :: rest else (k', n) :: bump k rest

/-- Frequency table of a list, keys in first-occurrence order. -/
def countsOf [DecidableEq K] (l : List K) : List (K × Nat) :=
  l.foldl (fun acc k => bump k acc) []

/-- Model of `Object.entries` key ordering: keys that are canonical
array indices (non-negative integers below `2^32 - 1`) come first in
ascending numeric order, the remaining keys keep insertion order.
`idx` extracts the array-index value of a key when it has one. -/
def jsEntriesBy (idx : K → Option Nat) (l : List (K × Nat)) : List (K × Nat) :=
  sortBy (fun a b => decide ((idx a.1).getD 0 < (idx b.1).getD 0)) (l.filter (fun p => (idx p.1).isSome))
    ++ l.filter (fun p => (idx p.1).isNone)

/-- Array-index value of a rational object key (a finite JS number used
as a property key): integral, non-negative and below `2^32 - 1`. -/
def idxOfQ (q : ℚ) : Option Nat :=
  if q.den = 1 ∧ 0 ≤ q.num ∧ q.num < 4294967295 then some q.num.toNat else none

/-- Array-index value of a string object key: canonical decimal digits
(no sign, no leading zero except `"0"`) denoting a number below
`2^32 - 1`. -/
def idxOfStr (s : String) : Option Nat :=
  let l := s.toList
  if l ≠ [] ∧ l.all Char.isDigit ∧ (l = ['0'] ∨ l.head? ≠ some '0') ∧ digitsVal l < 4294967295 then
    some (digitsVal l)
  else none

/-- Key of highest count: `Object.entries(counts).sort((a,b) => b[1] -
a[1])[0][0]` — entries in JS object order, stable sort by descending
count, first key. `none` models the `TypeError` raised by `[0][0]` when
the table is empty. -/
def topKeyBy [DecidableEq K] (idx : K → Option Nat) (l : List K) : Option K :=
  ((sortBy (fun a b => decide (b.2 < a.2)) (jsEntriesBy idx (countsOf l))).head?).map Prod.fst

/-- Number of days in a month of a given year (proleptic Gregorian, as
used by the JS `Date` built-in). -/
def daysInMonth (y m : Nat) : Nat :=
  if m = 2 then
    if y % 4 = 0 ∧ (y % 100 ≠ 0 ∨ y % 400 = 0) then 29 else 28
  else if m = 4 ∨ m = 6 ∨ m = 9 ∨ m = 11 then 30
  else 31

/-- Calendar date triple. -/
structure YMD where
  y : Nat
  m : Nat
  d : Nat
deriving DecidableEq

/-- Parse a strict ISO `YYYY-MM-DD` string to a valid calendar date.
This models the JS `Date` built-in (`Date.parse` / `new Date(...)`) on
the ISO date strings tabular data carries; other accepted JS date
syntaxes are outside the model and treated as unparseable. -/
def parseISODate (s : String) : Option YMD :=
  match s.toList with
  | [y1, y2, y3, y4, '-', m1, m2, '-', d1, d2] =>
    if ([y1, y2, y3, y4] ++ [m1, m2] ++ [d1, d2]).all Char.isDigit then
      let y := digitsVal [y1, y2, y3, y4]
      let m := digitsVal [m1, m2]
      let d := digitsVal [d1, d2]
      if 1 ≤ m ∧ m ≤ 12 ∧ 1 ≤ d ∧ d ≤ daysInMonth y m then some ⟨y, m, d⟩ else none
    else none
  | _ => none

/-- Model of JS date parsing on cell values: only ISO date strings are
recognised (see `parseISODate`). -/
def jsDateParse (v : Value) : Option YMD :=
  match v with
  | Value.str s => parseISODate s
  | _ => none

/-- Left-pad a decimal rendering with zeros to the given width. -/
def padNat (w n : Nat) : String :=
  String.mk (List.replicate (w - (natToStr n).length) '0') ++ natToStr n

/-- Model of `new Date(v).toISOString().split('T')[0]` on a parseable
date. -/
def isoDateString (x : YMD) : String :=
  padNat 4 x.y ++ "-" ++ padNat 2 x.m ++ "-" ++ padNat 2 x.d

/-- The four values of `missingValueStrategy` in `processingOptionsSchema`. -/
inductive Strategy where
  | mean
  | median
  | mode
  | constant
deriving DecidableEq

/-- Processing options validated by `processingOptionsSchema`;
`constantValue` is optional (`z.string().optional()`). -/
structure Options where
  removeOutliers : Bool
  fixDataTypes : Bool
  standardizeColumnNames : Bool
  missingValueStrategy : Strategy
  constantValue : Option String
deriving DecidableEq

/-- The four inferred column type labels. -/
inductive DType where
  | integer
  | float
  | date
  | string
deriving DecidableEq

/-- One entry of `stats.columnsRenamed`. -/
structure ColumnRename where
  original : String
  cleaned : String
  type : DType
deriving DecidableEq

/-- The statistics object accumulated by `cleanData`. -/
structure Stats where
  totalRows : Nat
  totalColumns : Nat
  duplicatesRemoved : Nat
  nullValuesFixed : Nat
  columnsRenamed : List ColumnRename
  dataTypeSummary : List (DType × Nat)
  outlierCount : Nat
deriving DecidableEq

/-- Errors a `cleanData` run can raise: the explicit `"Invalid data
format"` throw at entry, and uncaught JS `TypeError`s raised inside the
pipeline (calling a string method on a number, indexing into an empty
array). -/
inductive CleanError where
  | invalidInput
  | typeError
deriving DecidableEq

/-- Result of a successful `cleanData` run. -/
structure CleanResult where
  cleanedData : Dataset
  stats : Stats
deriving DecidableEq

/-- Evaluation of `val && val.includes(".")` on one sample value:
falsy values yield `false`, truthy strings test for a dot, and a truthy
non-string raises a `TypeError` (`none`) because numbers have no
`includes` method. -/
def includesDot (v : Value) : Option Bool :=
  if truthy v then
    match v with
    | Value.str s => some (s.toList.contains '.')
    | _ => none
  else some false

/-- Left-to-right short-circuiting `some(val => val && val.includes("."))`,
propagating the `TypeError`. -/
def someIncludesDot : List Value → Option Bool
  | [] => some false
  | v :: rest =>
    match includesDot v with
    | none => none
    | some true => some true
    | some false => someIncludesDot rest

/-- A sample value passes the numeric screen when it is null, undefined,
empty, or `Number(val)` is not NaN. -/
def numericOk (v : Value) : Bool :=
  v = Value.null ∨ v = Value.undef ∨ v = Value.str "" ∨ (numberOf v).isSome

/-- A sample value passes the date screen when it is null, undefined,
empty, or `Date.parse(val)` is not NaN. -/
def dateOk (v : Value) : Bool :=
  v = Value.null ∨ v = Value.undef ∨ v = Value.str "" ∨ (jsDateParse v).isSome

/-- Type inference over the first 100 sample values of a column; `none`
models the `TypeError` thrown by the float/integer discrimination when
a truthy number is reached. -/
def inferDType (sample : List Value) : Option DType :=
  if sample.all numericOk then
    (someIncludesDot sample).map (fun b => if b then DType.float else DType.integer)
  else if sample.all dateOk then some DType.date
  else some DType.string

/-- Accumulator state of the standardization `reduce`: the running
column mapping plus the stats fields it grows. -/
structure StdAcc where
  mapping : List (String × String)
  columnsRenamed : List ColumnRename
  dataTypeSummary : List (DType × Nat)

/-- Increment the tally of one inferred type in `dataTypeSummary`. -/
def bumpType (t : DType) (l : List (DType × Nat)) : List (DType × Nat) :=
  bump t l

/-- Process one original column of the standardization reduce: clean the
name, infer the type from the first 100 rows, record the rename entry
and the type tally, and extend the column mapping (`{...acc, [col]:
cleanedCol}`, last-wins on repeated keys). -/
def stdColumn (data : Dataset) (acc : StdAcc) (col : String) : Option StdAcc :=
  let cleanedCol := cleanName col
  let sampleValues := (data.take 100).map (fun row => getV row col)
  (inferDType sampleValues).map (fun dataType =>
    { mapping :=
        match acc.mapping.lookup col with
        | some _ => acc.mapping.map (fun p => if p.1 = col then (col, cleanedCol) else p)
        | none => acc.mapping ++ [(col, cleanedCol)]
      columnsRenamed := acc.columnsRenamed ++ [⟨col, cleanedCol, dataType⟩]
      dataTypeSummary := bumpType dataType acc.dataTypeSummary })

/-- Rebuild one row under the column mapping: a fresh object receives
`newRow[cleanedCol] = row[originalCol]` for each mapping entry in order. -/
def renameRow (mapping : List (String × String)) (row : Row) : Row :=
  mapping.foldl (fun newRow p => setV newRow p.2 (getV row p.1)) []

/-- Step 1 of `cleanData`: when `standardizeColumnNames` is set, build
the column mapping and rename every row, recording rename entries and
the type summary; otherwise leave data and stats untouched. `none`
models the `TypeError` of `inferDType`. -/
def standardizeStep (options : Options) (data : Dataset) (stats : Stats) :
    Option (Dataset × Stats) :=
  if options.standardizeColumnNames then
    let originalColumns := keysOf (data.headD [])
    (originalColumns.foldlM (stdColumn data) ⟨[], stats.columnsRenamed, stats.dataTypeSummary⟩).map
      (fun acc =>
        ((data.map (renameRow acc.mapping)),
          { stats with
              columnsRenamed := acc.columnsRenamed
              dataTypeSummary := acc.dataTypeSummary }))
  else some (data, stats)

/-- Canonicalisation of a cell value under `JSON.stringify`: NaN
serialises as `null`. -/
def canonVal (v : Value) : Value :=
  match v with
  | Value.nan => Value.null
  | _ => v

/-- Serialisation key of a row under `JSON.stringify`: properties in
insertion order, `undefined`-valued properties skipped, NaN rendered as
null. Two rows serialise identically iff their keys are equal. -/
def rowKey (row : Row) : Row :=
  (row.filter (fun p => p.2 ≠ Value.undef)).map (fun p => (p.1, canonVal p.2))

/-- Filtering pass of step 2: keep the first row for each serialisation
key. -/
def dedupeGo (seen : List Row) : Dataset → Dataset
  | [] => []
  | row :: rest =>
    if rowKey row ∈ seen then dedupeGo seen rest
    else row :: dedupeGo (rowKey row :: seen) rest

/-- Step 2 of `cleanData`: drop later duplicates;
`stats.duplicatesRemoved` is set to `data.length - dedupedData.length`. -/
def dedupeStep (data : Dataset) : Dataset × Nat :=
  let dedupedData := dedupeGo [] data
  (dedupedData, data.length - dedupedData.length)

/-- Sum of a list of numbers (`reduce((sum, val) => sum + val, 0)`). -/
def qSum (l : List ℚ) : ℚ := l.foldl (· + ·) 0

/-- Median of an already numerically sorted list: average of the two
middle elements for even length, the middle element otherwise. -/
def medianOf (sorted : List ℚ) : ℚ :=
  let mid := sorted.length / 2
  if sorted.length % 2 = 0 then (sorted.getD (mid - 1) 0 + sorted.getD mid 0) / 2
  else sorted.getD mid 0

/-- Replacement value for one column's missing cells, per strategy.
For `constant` it is `constantValue || ""`. Otherwise, with at least one
numeric value: mean, median, or the numeric mode (whose value is the
string form of the winning object key); with no numeric value, the mode
over the raw values. The mode's `[0][0]` indexing raises a `TypeError`
when the frequency table is empty. -/
def replacementFor (strategy : Strategy) (cv : Option String) (values : List Value) :
    Except CleanError Value :=
  if strategy = Strategy.constant then Except.ok (Value.str (cv.getD ""))
  else
    let numericValues := values.filterMap jsParseFloat
    if numericValues.length > 0 then
      if strategy = Strategy.mean then
        Except.ok (Value.num (qSum numericValues / (numericValues.length : ℚ)))
      else if strategy = Strategy.median then
        Except.ok (Value.num (medianOf (sortBy (fun x y => decide (x < y)) numericValues)))
      else
        match topKeyBy idxOfQ numericValues with
        | some q => Except.ok (Value.str (renderNum q))
        | none => Except.error CleanError.typeError
    else
      match topKeyBy idxOfStr (values.map keyString) with
      | some k => Except.ok (Value.str k)
      | none => Except.error CleanError.typeError

/-- Replace every missing cell of one column by the replacement value,
counting the replacements (`stats.nullValuesFixed++` per replaced row). -/
def replaceMissing (col : String) (repl : Value) : Dataset → Dataset × Nat
  | [] => ([], 0)
  | row :: rest =>
    let r := replaceMissing col repl rest
    if isMissingV (getV row col) then (setV row col repl :: r.1, r.2 + 1)
    else (row :: r.1, r.2)

/-- One column of the imputation `forEach`: gather the non-missing
values, skip the column when it has no missing cell, otherwise compute
the replacement and rewrite the dataset. -/
def imputeColumn (strategy : Strategy) (cv : Option String) (st : Dataset × Nat)
    (col : String) : Except CleanError (Dataset × Nat) :=
  let values := (st.1.map (fun row => getV row col)).filter (fun v => ¬ isMissingV v)
  let missingCount := st.1.countP (fun row => isMissingV (getV row col))
  if missingCount = 0 then Except.ok st
  else
    match replacementFor strategy cv values with
    | Except.error e => Except.error e
    | Except.ok repl =>
      let r := replaceMissing col repl st.1
      Except.ok (r.1, st.2 + r.2)

/-- Step 3 of `cleanData`: runs unless the strategy is `constant` with
no `constantValue` supplied; iterates the columns of the first row over
the progressively imputed dataset. -/
def imputeStep (options : Options) (data : Dataset) (fixed : Nat) :
    Except CleanError (Dataset × Nat) :=
  if options.missingValueStrategy ≠ Strategy.constant ∨ options.constantValue ≠ none then
    (keysOf (data.headD [])).foldlM
      (imputeColumn options.missingValueStrategy options.constantValue) (data, fixed)
  else Except.ok (data, fixed)

/-- A row is an outlier on a column when its cell parses to a number
outside the current bounds; unparseable cells never mark a row. -/
def isOutlierAt (lowerBound upperBound : ℚ) (col : String) (row : Row) : Bool :=
  match jsParseFloat (getV row col) with
  | none => false
  | some v => v < lowerBound ∨ upperBound < v

/-- One column of the outlier `forEach`: positional quartiles on the
sorted parseable values, IQR bounds, filter out-of-bounds rows and
count each removal. -/
def outlierColumn (st : Dataset × Nat) (col : String) : Dataset × Nat :=
  let numericValues := st.1.filterMap (fun row => jsParseFloat (getV row col))
  if numericValues.length = 0 then st
  else
    let sorted := sortBy (fun x y => decide (x < y)) numericValues
    let q1 := sorted.getD (sorted.length * 25 / 100) 0
    let q3 := sorted.getD (sorted.length * 75 / 100) 0
    let iqr := q3 - q1
    let lowerBound := q1 - 3 / 2 * iqr
    let upperBound := q3 + 3 / 2 * iqr
    (st.1.filter (fun row => !isOutlierAt lowerBound upperBound col row),
      st.2 + st.1.countP (isOutlierAt lowerBound upperBound col))

/-- Step 4 of `cleanData`: when `removeOutliers` is set, filter each
column in order against the dataset as already reduced by the previous
columns. -/
def outlierStep (options : Options) (data : Dataset) (count : Nat) : Dataset × Nat :=
  if options.removeOutliers then (keysOf (data.headD [])).foldl outlierColumn (data, count)
  else (data, count)

/-- Coerce one cell onto the fresh copy of its row: integer and float
parse failures store NaN; a date parse failure is caught and leaves the
copy untouched; string columns and missing cells are untouched. The
value is read from the original row of the iteration. -/
def coerceCell (t : DType) (row : Row) (col : String) (newRow : Row) : Row :=
  let value := getV row col
  if isMissingV value then newRow
  else
    match t with
    | DType.integer =>
      setV newRow col (match jsParseInt value with
        | some n => Value.num (n : ℚ)
        | none => Value.nan)
    | DType.float =>
      setV newRow col (match jsParseFloat value with
        | some q => Value.num q
        | none => Value.nan)
    | DType.date =>
      match jsDateParse value with
      | some x => setV newRow col (Value.str (isoDateString x))
      | none => newRow
    | DType.string => newRow

/-- One iteration of the per-row coercion `forEach`: look up the
column's rename entry by cleaned name; without one the row copy is left
alone. -/
def coerceFolder (columnsRenamed : List ColumnRename) (row : Row) (newRow : Row)
    (col : String) : Row :=
  match columnsRenamed.find? (fun c => c.cleaned = col) with
  | none => newRow
  | some info => coerceCell info.type row col newRow

/-- Coerce one row: start from the spread copy `{...row}` and process
each column that has a rename entry (matched on the cleaned name). -/
def coerceRow (columnsRenamed : List ColumnRename) (columns : List String) (row : Row) : Row :=
  columns.foldl (coerceFolder columnsRenamed row) row

/-- Step 5 of `cleanData`: when `fixDataTypes` is set, coerce every row
against the recorded column types. -/
def coerceStep (options : Options) (columnsRenamed : List ColumnRename) (data : Dataset) :
    Dataset :=
  if options.fixDataTypes then
    data.map (coerceRow columnsRenamed (keysOf (data.headD [])))
  else data

/-- The statistics object as initialised at the top of `cleanData`:
row and column snapshots, all counters zero. -/
def initStats (rawData : Dataset) : Stats :=
  { totalRows := rawData.length
    totalColumns := (keysOf (rawData.headD [])).length
    duplicatesRemoved := 0
    nullValuesFixed := 0
    columnsRenamed := []
    dataTypeSummary := []
    outlierCount := 0 }

/-- The cleaning orchestrator `cleanData(rawData, options)`: reject an
empty dataset, then standardize, dedupe, impute, filter outliers and
coerce types in order, accumulating the statistics. -/
def cleanData (rawData : Dataset) (options : Options) : Except CleanError CleanResult :=
  if rawData.length = 0 then Except.error CleanError.invalidInput
  else
    match standardizeStep options rawData (initStats rawData) with
    | none => Except.error CleanError.typeError
    | some (data1, stats1) =>
      match imputeStep options (dedupeStep data1).1 0 with
      | Except.error e => Except.error e
      | Except.ok (data3, fixed) =>
        Except.ok ⟨coerceStep options stats1.columnsRenamed (outlierStep options data3 0).1,
          { stats1 with
              duplicatesRemoved := (dedupeStep data1).2
              nullValuesFixed := fixed
              outlierCount := (outlierStep options data3 0).2 }⟩

/-- Error projection of a run result. -/
def errOf (r : Except CleanError CleanResult) : Option CleanError :=
  match r with
  | Except.error e => some e
  | Except.ok _ => none

/-- Cleaned-dataset projection of a run result. -/
def okData (r : Except CleanError CleanResult) : Option Dataset :=
  match r with
  | Except.error _ => none
  | Except.ok res => some res.cleanedData

/-- Stats projection of a run result. -/
def okStats (r : Except CleanError CleanResult) : Option Stats :=
  match r with
  | Except.error _ => none
  | Except.ok res => some res.stats

instance {e a : Type} [DecidableEq e] [DecidableEq a] : DecidableEq (Except e a)
  | Except.error x, Except.error y => decidable_of_iff (x = y) (by simp)
  | Except.error _, Except.ok _ => isFalse (by simp)
  | Except.ok _, Except.error _ => isFalse (by simp)
  | Except.ok x, Except.ok y => decidable_of_iff (x = y) (by simp)


/-! Basic lemmas about row reads and writes. -/

theorem getV_cons (k' : String) (v' : Value) (rest : List (String × Value)) (c : String) :
    getV ((k', v') :: rest) c = if k' = c then v' else getV rest c := by
  by_cases h : k' = c <;> simp [getV, List.find?, h]

theorem getV_setV_same (row : Row) (k : String) (v : Value) : getV (setV row k v) k = v := by
  induction row with
  | nil => simp [setV, getV, List.find?]
  | cons p rest ih =>
    obtain ⟨k', v'⟩ := p
    by_cases h : k' = k
    · simp [setV, h, getV, List.find?]
    · simp only [setV, if_neg h, getV_cons, ih]

theorem getV_setV_other (row : Row) (k c : String) (v : Value) (hne : c ≠ k) :
    getV (setV row k v) c = getV row c := by
  induction row with
  | nil => simp [setV, getV, List.find?, Ne.symm hne]
  | cons p rest ih =>
    obtain ⟨k', v'⟩ := p
    by_cases h : k' = k
    · subst h
      simp [setV, getV_cons, Ne.symm hne]
    · simp [setV, if_neg h, getV_cons, ih]

theorem keysOf_setV_mem (row : Row) (k : String) (v : Value) (hmem : k ∈ keysOf row) :
    keysOf (setV row k v) = keysOf row := by
  induction row with
  | nil => simp [keysOf] at hmem
  | cons p rest ih =>
    obtain ⟨k', v'⟩ := p
    by_cases h : k' = k
    · simp [setV, h, keysOf]
    · have hk : k ∈ keysOf rest := by
        simp only [keysOf, List.map_cons, List.mem_cons] at hmem
        exact hmem.resolve_left (fun h1 => h h1.symm)
      have hrec := ih hk
      simp only [setV, if_neg h, keysOf, List.map_cons] at hrec ⊢
      rw [hrec]

theorem getV_of_mem_nodup (row : Row) (p : String × Value) (hmem : p ∈ row)
    (hnodup : (keysOf row).Nodup) : getV row p.1 = p.2 := by
  induction row with
  | nil => simp at hmem
  | cons q rest ih =>
    obtain ⟨k', v'⟩ := q
    simp only [keysOf, List.map_cons, List.nodup_cons] at hnodup
    rcases List.mem_cons.mp hmem with h | h
    · subst h
      simp [getV, List.find?]
    · have hkmem : p.1 ∈ List.map Prod.fst rest := List.mem_map_of_mem Prod.fst h
      have hne : k' ≠ p.1 := fun hk => hnodup.1 (hk ▸ hkmem)
      have := ih h hnodup.2
      simpa [getV_cons, hne] using this

/-! Membership lemmas for the stable sort and the frequency tables. -/

theorem mem_insertBy {lt : α → α → Bool} {a x : α} {l : List α} :
    x ∈ insertBy lt a l ↔ x = a ∨ x ∈ l := by
  induction l with
  | nil => simp [insertBy]
  | cons b rest ih =>
    by_cases h : lt b a
    · simp [insertBy, h, ih]
      tauto
    · simp [insertBy, h]

theorem mem_sortBy {lt : α → α → Bool} {x : α} {l : List α} :
    x ∈ sortBy lt l ↔ x ∈ l := by
  induction l with
  | nil => simp [sortBy]
  | cons a rest ih =>
    simp [sortBy, mem_insertBy, ih]

theorem length_insertBy (lt : α → α → Bool) (a : α) (l : List α) :
    (insertBy lt a l).length = l.length + 1 := by
  induction l with
  | nil => simp [insertBy]
  | cons b rest ih =>
    by_cases h : lt b a <;> simp [insertBy, h, ih]

theorem length_sortBy (lt : α → α → Bool) (l : List α) :
    (sortBy lt l).length = l.length := by
  induction l with
  | nil => simp [sortBy]
  | cons a rest ih => simp [sortBy, length_insertBy, ih]

theorem mem_bump_keys [DecidableEq K] {e : K × Nat} {k : K} {acc : List (K × Nat)}
    (h : e ∈ bump k acc) : e.1 = k ∨ e.1 ∈ acc.map Prod.fst := by
  induction acc with
  | nil =>
    simp [bump] at h
    simp [h]
  | cons p rest ih =>
    obtain ⟨k', n⟩ := p
    by_cases hk : k' = k
    · simp only [bump, if_pos hk, List.mem_cons] at h
      rcases h with h | h
      · left
        simp [h, hk]
      · right
        simp [List.mem_map_of_mem Prod.fst h]
    · simp only [bump, if_neg hk, List.mem_cons] at h
      rcases h with h | h
      · right
        simp [h]
      · rcases ih h with h2 | h2
        · exact Or.inl h2
        · right
          simp only [List.map_cons, List.mem_cons]
          exact Or.inr h2

theorem mem_countsOf_keys [DecidableEq K] {e : K × Nat} {l : List K}
    (h : e ∈ countsOf l) : e.1 ∈ l := by
  have main : ∀ (l : List K) (acc : List (K × Nat)), e ∈ l.foldl (fun acc k => bump k acc) acc →
      e.1 ∈ l ∨ e.1 ∈ acc.map Prod.fst := by
    intro l
    induction l with
    | nil => intro acc h; simp at h; simp [List.mem_map_of_mem Prod.fst h]
    | cons k rest ih =>
      intro acc h
      rcases ih (bump k acc) h with h2 | h2
      · exact Or.inl (List.mem_cons_of_mem k h2)
      · rcases List.mem_map.mp h2 with ⟨e', he', hfst⟩
        rcases mem_bump_keys he' with h3 | h3
        · exact Or.inl (by simp [← hfst, h3])
        · exact Or.inr (hfst ▸ h3)
  rcases main l [] h with h2 | h2
  · exact h2
  · simp at h2

theorem mem_jsEntriesBy {idx : K → Option Nat} {e : K × Nat} {l : List (K × Nat)}
    (h : e ∈ jsEntriesBy idx l) : e ∈ l := by
  rcases List.mem_append.mp h with h2 | h2
  · exact List.mem_of_mem_filter (mem_sortBy.mp h2)
  · exact List.mem_of_mem_filter h2

theorem topKeyBy_mem [DecidableEq K] {idx : K → Option Nat} {l : List K} {k : K}
    (h : topKeyBy idx l = some k) : k ∈ l := by
  unfold topKeyBy at h
  rcases hs : sortBy (fun a b => decide (b.2 < a.2)) (jsEntriesBy idx (countsOf l)) with _ | ⟨e, rest⟩
  · rw [hs] at h
    simp at h
  · rw [hs] at h
    simp at h
    have he : e ∈ sortBy (fun a b => decide (b.2 < a.2)) (jsEntriesBy idx (countsOf l)) := by
      rw [hs]
      exact List.mem_cons_self e rest
    have := mem_countsOf_keys (mem_jsEntriesBy (mem_sortBy.mp he))
    rwa [h] at this

theorem natChars_ne_nil (fuel n : Nat) : natChars (fuel + 1) n ≠ [] := by
  by_cases h : n < 10 <;> simp [natChars, h]

theorem natToStr_ne_empty (n : Nat) : natToStr n ≠ "" := by
  unfold natToStr
  intro h
  exact natChars_ne_nil n n (congrArg String.data h)

theorem renderNum_ne_empty (q : ℚ) : renderNum q ≠ "" := by
  rw [renderNum]
  split
  · intro h
    have h2 := congrArg String.length h
    rw [String.length_append] at h2
    have h3 : "-".length = 1 := rfl
    have h4 : "".length = 0 := rfl
    omega
  · split
    · exact natToStr_ne_empty _
    · intro h
      have h2 := congrArg String.length h
      rw [String.length_append, String.length_append] at h2
      have h3 : ".".length = 1 := rfl
      have h4 : "".length = 0 := rfl
      omega

theorem keyString_ne_empty (v : Value) (h : isMissingV v = false) : keyString v ≠ "" := by
  cases v with
  | str s =>
    simp [isMissingV] at h
    simpa [keyString] using h
  | num q => exact renderNum_ne_empty q
  | nan => simp [keyString]
  | null => simp [isMissingV] at h
  | undef => simp [isMissingV] at h

/-! Deduplication lemmas. -/

theorem dedupeGo_idem (d : Dataset) : ∀ seen, dedupeGo seen (dedupeGo seen d) = dedupeGo seen d := by
  induction d with
  | nil => intro seen; simp [dedupeGo]
  | cons r rest ih =>
    intro seen
    by_cases h : rowKey r ∈ seen
    · simp [dedupeGo, h, ih]
    · simp only [dedupeGo, if_neg h]
      simp [dedupeGo, h, ih (rowKey r :: seen)]

theorem dedupeGo_length_le (d : Dataset) : ∀ seen, (dedupeGo seen d).length ≤ d.length := by
  induction d with
  | nil => intro seen; simp [dedupeGo]
  | cons r rest ih =>
    intro seen
    by_cases h : rowKey r ∈ seen
    · simp only [dedupeGo, if_pos h]
      exact Nat.le_succ_of_le (ih seen)
    · simp only [dedupeGo, if_neg h, List.length_cons]
      exact Nat.succ_le_succ (ih _)

/-- C8: the deduplication step is idempotent — applied to its own output
it returns the output unchanged and removes zero further duplicates. -/
theorem dedupe_idempotent (d : Dataset) :
    dedupeStep (dedupeStep d).1 = ((dedupeStep d).1, 0) := by
  unfold dedupeStep
  simp [dedupeGo_idem d []]

/-! Concrete scenario datasets and options. -/

/-- Scenario A raw rows: a column named `"A "` with values `"1"`, `"1"`,
`""`. -/
def rawA : Dataset := [[("A ", Value.str "1")], [("A ", Value.str "1")], [("A ", Value.str "")]]

/-- Scenario A options: standardize column names, `constant` strategy
with `constantValue = "0"`; the remaining switches are absent (falsy). -/
def optsA : Options := ⟨false, false, true, Strategy.constant, some "0"⟩

/-- C3: the spec's Scenario A is wrong about the standardized column
name: `"A "` standardizes to `"a_"` (the trailing space becomes an
underscore, which is a word character and survives the strip), so the
final dataset is not `[{"a":"1"},{"a":"0"}]`. -/
theorem c3_counterexample :
    cleanName "A " = "a_" ∧
    okData (cleanData rawA optsA) ≠ some [[("a", Value.str "1")], [("a", Value.str "0")]] := by
  decide

/-- C3 (amended): on Scenario A the column standardizes to `"a_"`; one
duplicate row is removed (`duplicatesRemoved = 1`), the empty cell is
replaced by `"0"` (`nullValuesFixed = 1`), and the final dataset is
`[{"a_":"1"},{"a_":"0"}]`. -/
theorem c3_amended :
    okData (cleanData rawA optsA) = some [[("a_", Value.str "1")], [("a_", Value.str "0")]] ∧
    okStats (cleanData rawA optsA) =
      some ⟨3, 1, 1, 1, [⟨"A ", "a_", DType.integer⟩], [(DType.integer, 1)], 0⟩ := by
  decide

/-- Dataset whose single column is entirely missing. -/
def rawAllMissing : Dataset := [[("a", Value.str "")]]

/-- Options with everything off except the given strategy. -/
def optsOf (s : Strategy) : Options := ⟨false, false, false, s, none⟩

/-- C9: on a dataset whose column is entirely missing, the `mean`,
`median` and `mode` strategies all throw a runtime `TypeError` (the
non-numeric mode fallback indexes `[0][0]` into the empty sorted list of
value counts) instead of returning a cleaned dataset. -/
theorem c9_all_missing_crash :
    errOf (cleanData rawAllMissing (optsOf Strategy.mean)) = some CleanError.typeError ∧
    errOf (cleanData rawAllMissing (optsOf Strategy.median)) = some CleanError.typeError ∧
    errOf (cleanData rawAllMissing (optsOf Strategy.mode)) = some CleanError.typeError := by
  decide

/-- C10: on a dataset whose cells are numbers, the sampled values all
pass the numeric screen and the first sampled value is a truthy number,
so type inference during standardization throws a `TypeError` (calling
the string method `includes` on a number) instead of classifying the
column. -/
theorem c10_numeric_inference_crash :
    numericOk (Value.num 5) = true ∧
    truthy (Value.num 5) = true ∧
    errOf (cleanData [[("a", Value.num 5)]] ⟨false, false, true, Strategy.mean, none⟩) =
      some CleanError.typeError := by
  decide

/-- C1: with `missingValueStrategy = "constant"` and `constantValue`
unsupplied, the whole imputation stage is skipped (the stage's guard
`strategy !== "constant" || constantValue !== undefined` fails), so a
previously-missing cell remains missing in the output and
`nullValuesFixed` stays 0 — refuting imputation completeness for the
claimed domain. -/
theorem c1_counterexample :
    okData (cleanData rawAllMissing ⟨false, false, false, Strategy.constant, none⟩) =
      some [[("a", Value.str "")]] ∧
    isMissingV (Value.str "") = true ∧
    (okStats (cleanData rawAllMissing ⟨false, false, false, Strategy.constant, none⟩)).map
      Stats.nullValuesFixed = some 0 := by
  decide

/-- Two-row dataset whose second cell is imputed with the unparseable
constant `"abc"` in a column typed `integer`. -/
def rawC2 : Dataset := [[("a", Value.str "1")], [("a", Value.str "")]]

/-- Options for the C2 counterexample: standardize and fix data types,
constant strategy `"abc"`. -/
def optsC2 : Options := ⟨false, true, true, Strategy.constant, some "abc"⟩

/-- C2: a cell that fails integer parsing is not left unchanged by the
coercion stage — `newRow[col] = parseInt(value)` stores NaN: the cell
holding `"abc"` (unparseable) comes out as NaN, not `"abc"`. -/
theorem c2_counterexample :
    jsParseInt (Value.str "abc") = none ∧
    okData (cleanData rawC2 optsC2) = some [[("a", Value.num 1)], [("a", Value.nan)]] := by
  decide

/-- Non-uniform two-row dataset: the rows have different column sets. -/
def rawNonUniform : Dataset := [[("a", Value.str "1")], [("b", Value.str "2")]]

/-- C4: `cleanData` does not raise on a non-uniform row collection — it
only checks for an empty (or non-array) input — so the "exactly when"
part of the claim fails: this non-uniform dataset is cleaned without
error. -/
theorem c4_counterexample :
    keysOf [("a", Value.str "1")] ≠ keysOf [("b", Value.str "2")] ∧
    errOf (cleanData rawNonUniform (optsOf Strategy.constant)) = none := by
  decide

/-- Scenario B raw rows: one numeric column with values 1, 2, 3, 4, 100. -/
def rawB : Dataset :=
  [[("v", Value.num 1)], [("v", Value.num 2)], [("v", Value.num 3)], [("v", Value.num 4)],
    [("v", Value.num 100)]]

/-- Scenario B options: `removeOutliers` on, everything else off. -/
def optsB : Options := ⟨true, false, false, Strategy.mean, none⟩

/-- C5: the outlier filter sorts the parseable values, takes positional
quartiles at `floor(n*0.25)` and `floor(n*0.75)`, keeps exactly the rows
whose parseable value lies inside `[Q1 - 1.5*IQR, Q3 + 1.5*IQR]`
(unparseable rows always kept), and adds one to the counter per removed
row; on Scenario B this gives Q1 = 2, Q3 = 4, bounds [-1, 7], removes
the row with 100 and reports `outlierCount = 1`. -/
theorem c5_outlier_filter :
    (∀ (st : Dataset × Nat) (col : String),
      outlierColumn st col =
        (let numericValues := st.1.filterMap (fun row => jsParseFloat (getV row col))
         let sorted := sortBy (fun x y => decide (x < y)) numericValues
         let q1 := sorted.getD (sorted.length * 25 / 100) 0
         let q3 := sorted.getD (sorted.length * 75 / 100) 0
         let lowerBound := q1 - 3 / 2 * (q3 - q1)
         let upperBound := q3 + 3 / 2 * (q3 - q1)
         (st.1.filter (fun row => !isOutlierAt lowerBound upperBound col row),
          st.2 + st.1.countP (isOutlierAt lowerBound upperBound col)))) ∧
    sortBy (fun x y => decide (x < y)) [(1 : ℚ), 2, 3, 4, 100] = [1, 2, 3, 4, 100] ∧
    ([(1 : ℚ), 2, 3, 4, 100].getD (5 * 25 / 100) 0 = 2 ∧
      [(1 : ℚ), 2, 3, 4, 100].getD (5 * 75 / 100) 0 = 4) ∧
    ((2 : ℚ) - 3 / 2 * (4 - 2) = -1 ∧ (4 : ℚ) + 3 / 2 * (4 - 2) = 7) ∧
    okData (cleanData rawB optsB) =
      some [[("v", Value.num 1)], [("v", Value.num 2)], [("v", Value.num 3)], [("v", Value.num 4)]] ∧
    (okStats (cleanData rawB optsB)).map Stats.outlierCount = some 1 := by
  refine ⟨?_, by decide, by decide, by decide, by decide, by decide⟩
  intro st col
  by_cases h : (st.1.filterMap (fun row => jsParseFloat (getV row col))).length = 0
  · have hnil : st.1.filterMap (fun row => jsParseFloat (getV row col)) = [] :=
      List.length_eq_zero.mp h
    have hout : ∀ row ∈ st.1, isOutlierAt 0 0 col row = false := by
      intro row hrow
      simp [isOutlierAt, List.filterMap_eq_nil_iff.mp hnil row hrow]
    have hfilter : st.1.filter (fun row => !isOutlierAt 0 0 col row) = st.1 :=
      List.filter_eq_self.mpr (fun row hrow => by simp [hout row hrow])
    have hcount : st.1.countP (isOutlierAt 0 0 col) = 0 :=
      List.countP_eq_zero.mpr (fun row hrow => by simp [hout row hrow])
    simp [outlierColumn, hnil, sortBy, hfilter, hcount]
  · simp [outlierColumn, h]

/-! Row-count lemmas for each pipeline stage. -/

theorem standardizeStep_length {opts : Options} {data : Dataset} {stats : Stats}
    {out : Dataset × Stats} (h : standardizeStep opts data stats = some out) :
    out.1.length = data.length := by
  simp only [standardizeStep] at h
  split at h
  · rcases hfold : (keysOf (data.headD [])).foldlM (stdColumn data)
        ⟨[], stats.columnsRenamed, stats.dataTypeSummary⟩ with _ | acc
    · rw [hfold] at h
      simp at h
    · rw [hfold] at h
      simp only [Option.map_some'] at h
      rw [← Option.some_inj.mp h]
      simp
  · rw [← Option.some_inj.mp h]

theorem replaceMissing_length (col : String) (repl : Value) (d : Dataset) :
    (replaceMissing col repl d).1.length = d.length := by
  induction d with
  | nil => simp [replaceMissing]
  | cons row rest ih =>
    by_cases h : isMissingV (getV row col) <;> simp [replaceMissing, h, ih]

theorem imputeColumn_length {s : Strategy} {cv : Option String} {st out : Dataset × Nat}
    {col : String} (h : imputeColumn s cv st col = Except.ok out) :
    out.1.length = st.1.length := by
  simp only [imputeColumn] at h
  split at h
  · rw [← Except.ok.inj h]
  · split at h
    · exact absurd h (by simp)
    · rw [← Except.ok.inj h]
      exact replaceMissing_length _ _ _

theorem imputeFold_length {s : Strategy} {cv : Option String} :
    ∀ (cols : List String) (st out : Dataset × Nat),
      List.foldlM (imputeColumn s cv) st cols = Except.ok out → out.1.length = st.1.length := by
  intro cols
  induction cols with
  | nil =>
    intro st out h
    simp only [List.foldlM, pure, Except.pure, Except.ok.injEq] at h
    rw [← h]
  | cons c rest ih =>
    intro st out h
    rw [List.foldlM_cons] at h
    rcases h2 : imputeColumn s cv st c with e | st2
    · rw [h2] at h
      simp [Bind.bind, Except.bind] at h
    · rw [h2] at h
      simp only [Bind.bind, Except.bind] at h
      rw [ih st2 out h]
      exact imputeColumn_length h2

theorem imputeStep_length {opts : Options} {data : Dataset} {fixed : Nat}
    {out : Dataset × Nat} (h : imputeStep opts data fixed = Except.ok out) :
    out.1.length = data.length := by
  unfold imputeStep at h
  split at h
  · exact imputeFold_length _ _ _ h
  · rw [← Except.ok.inj h]

theorem outlierColumn_length_le (st : Dataset × Nat) (col : String) :
    (outlierColumn st col).1.length ≤ st.1.length := by
  by_cases h : (st.1.filterMap (fun row => jsParseFloat (getV row col))).length = 0
  · simp [outlierColumn, h]
  · simp only [outlierColumn, if_neg h]
    exact List.length_filter_le _ _

theorem outlierFold_length_le :
    ∀ (cols : List String) (st : Dataset × Nat),
      ((cols.foldl outlierColumn st).1).length ≤ st.1.length := by
  intro cols
  induction cols with
  | nil => intro st; exact le_rfl
  | cons c rest ih =>
    intro st
    exact le_trans (ih (outlierColumn st c)) (outlierColumn_length_le st c)

theorem outlierStep_length_le (opts : Options) (data : Dataset) (count : Nat) :
    (outlierStep opts data count).1.length ≤ data.length := by
  unfold outlierStep
  split
  · exact outlierFold_length_le _ _
  · exact le_rfl

theorem coerceStep_length (opts : Options) (cr : List ColumnRename) (data : Dataset) :
    (coerceStep opts cr data).length = data.length := by
  unfold coerceStep
  split <;> simp

/-- C7: whenever `cleanData` returns a result, the cleaned dataset has
at most as many rows as the raw dataset — standardization, imputation
and coercion are row-wise maps, while deduplication and outlier
filtering only remove rows. -/
theorem c7_row_count (raw : Dataset) (opts : Options) (res : CleanResult)
    (h : cleanData raw opts = Except.ok res) : res.cleanedData.length ≤ raw.length := by
  unfold cleanData at h
  split at h
  · exact absurd h (by simp)
  · split at h
    next => simp at h
    next data1 stats1 hstd =>
      split at h
      next => simp at h
      next data3 fixed himp =>
        have hres := Except.ok.inj h
        have h5 : res.cleanedData.length = (outlierStep opts data3 0).1.length := by
          rw [← hres]
          exact coerceStep_length _ _ _
        have h4 : (outlierStep opts data3 0).1.length ≤ data3.length :=
          outlierStep_length_le _ _ _
        have h3 : data3.length = (dedupeStep data1).1.length :=
          imputeStep_length himp
        have h2 : (dedupeStep data1).1.length ≤ data1.length := dedupeGo_length_le _ _
        have h1 : data1.length = raw.length :=
          standardizeStep_length hstd
        omega

/-- Witness for C7 at Scenario A: the cleaned dataset has 2 rows, the
raw dataset 3. -/
theorem c7_row_count_witness :
    ([[("a_", Value.str "1")], [("a_", Value.str "0")]] : Dataset).length ≤ rawA.length :=
  c7_row_count rawA optsA
    ⟨[[("a_", Value.str "1")], [("a_", Value.str "0")]],
      ⟨3, 1, 1, 1, [⟨"A ", "a_", DType.integer⟩], [(DType.integer, 1)], 0⟩⟩
    (by decide)

/-- Abbreviation used below: a run result equals `ok` when its two
projections match. -/
theorem eq_ok_of_proj {r : Except CleanError CleanResult} {d : Dataset} {s : Stats}
    (h1 : okData r = some d) (h2 : okStats r = some s) : r = Except.ok ⟨d, s⟩ := by
  cases r with
  | error e => simp [okData] at h1
  | ok res =>
    simp [okData] at h1
    simp [okStats] at h2
    rw [← h1, ← h2]

/-! Error-classification lemmas: every failure inside the pipeline is a
`typeError`; `invalidInput` arises only from the entry guard. -/

theorem replacementFor_error {s : Strategy} {cv : Option String} {vs : List Value}
    {e : CleanError} (h : replacementFor s cv vs = Except.error e) :
    e = CleanError.typeError := by
  simp only [replacementFor] at h
  split at h
  · simp at h
  · split at h
    · split at h
      · simp at h
      · split at h
        · simp at h
        · split at h
          · simp at h
          · exact (Except.error.inj h).symm
    · split at h
      · simp at h
      · exact (Except.error.inj h).symm

theorem imputeColumn_error {s : Strategy} {cv : Option String} {st : Dataset × Nat}
    {col : String} {e : CleanError} (h : imputeColumn s cv st col = Except.error e) :
    e = CleanError.typeError := by
  simp only [imputeColumn] at h
  split at h
  · simp at h
  · split at h
    next e' hrep =>
      rw [replacementFor_error hrep] at h
      exact (Except.error.inj h).symm
    next => simp at h

theorem imputeFold_error {s : Strategy} {cv : Option String} :
    ∀ (cols : List String) (st : Dataset × Nat) (e : CleanError),
      List.foldlM (imputeColumn s cv) st cols = Except.error e → e = CleanError.typeError := by
  intro cols
  induction cols with
  | nil =>
    intro st e h
    simp [List.foldlM, pure, Except.pure] at h
  | cons c rest ih =>
    intro st e h
    rw [List.foldlM_cons] at h
    rcases h2 : imputeColumn s cv st c with e' | st2
    · rw [h2] at h
      simp only [Bind.bind, Except.bind] at h
      rw [← Except.error.inj h]
      exact imputeColumn_error h2
    · rw [h2] at h
      simp only [Bind.bind, Except.bind] at h
      exact ih st2 e h

theorem imputeStep_error {opts : Options} {data : Dataset} {fixed : Nat} {e : CleanError}
    (h : imputeStep opts data fixed = Except.error e) : e = CleanError.typeError := by
  unfold imputeStep at h
  split at h
  · exact imputeFold_error _ _ _ h
  · simp at h

/-- C4 (amended): `cleanData` raises the `InvalidInputError`-class error
exactly when the raw dataset is empty; uniformity of the row collection
is never checked. On the empty dataset the error is raised and no
cleaned dataset or stats are produced (the run result carries no
output). -/
theorem c4_amended (raw : Dataset) (opts : Options) :
    errOf (cleanData raw opts) = some CleanError.invalidInput ↔ raw = [] := by
  constructor
  · intro h
    by_contra hne
    have hlen : ¬ raw.length = 0 := fun h0 => hne (List.length_eq_zero.mp h0)
    unfold cleanData at h
    rw [if_neg hlen] at h
    split at h
    · simp [errOf] at h
    · split at h
      next e himp =>
        rw [imputeStep_error himp] at h
        simp [errOf] at h
      next => simp [errOf] at h
  · intro h
    subst h
    simp [cleanData, errOf]

/-- Witness for C4 (amended) at the empty dataset. -/
theorem c4_amended_witness :
    errOf (cleanData [] (optsOf Strategy.mean)) = some CleanError.invalidInput :=
  (c4_amended [] (optsOf Strategy.mean)).mpr rfl

/-! Coercion-stage lemmas. -/

theorem coerceCell_of_not_missing (t : DType) (row acc : Row) (c : String)
    (h : isMissingV (getV row c) = false) :
    coerceCell t row c acc =
      match t with
      | DType.integer =>
        setV acc c (match jsParseInt (getV row c) with
          | some n => Value.num (n : ℚ)
          | none => Value.nan)
      | DType.float =>
        setV acc c (match jsParseFloat (getV row c) with
          | some q => Value.num q
          | none => Value.nan)
      | DType.date =>
        (match jsDateParse (getV row c) with
          | some x => setV acc c (Value.str (isoDateString x))
          | none => acc)
      | DType.string => acc := by
  unfold coerceCell
  rw [if_neg (by simp [h])]

theorem coerceCell_of_missing (t : DType) (row acc : Row) (c : String)
    (h : isMissingV (getV row c) = true) : coerceCell t row c acc = acc := by
  unfold coerceCell
  rw [if_pos (by simp [h])]

theorem coerceCell_getV_other (t : DType) (row acc : Row) (c col : String) (hne : col ≠ c) :
    getV (coerceCell t row c acc) col = getV acc col := by
  by_cases hm : isMissingV (getV row c) = true
  · rw [coerceCell_of_missing t row acc c hm]
  · rw [coerceCell_of_not_missing t row acc c (by simpa using hm)]
    cases t with
    | integer => exact getV_setV_other acc c col _ hne
    | float => exact getV_setV_other acc c col _ hne
    | date =>
      rcases hd : jsDateParse (getV row c) with _ | x
      · rfl
      · exact getV_setV_other acc c col _ hne
    | string => rfl

theorem coerceFolder_getV_other (cr : List ColumnRename) (row acc : Row) (c col : String)
    (hne : col ≠ c) : getV (coerceFolder cr row acc c) col = getV acc col := by
  unfold coerceFolder
  split
  · rfl
  · exact coerceCell_getV_other _ row acc c col hne

theorem coerceFold_getV_notmem (cr : List ColumnRename) (row : Row) (col : String) :
    ∀ (cols : List String) (acc : Row), col ∉ cols →
      getV (cols.foldl (coerceFolder cr row) acc) col = getV acc col := by
  intro cols
  induction cols with
  | nil => intro acc _; rfl
  | cons c rest ih =>
    intro acc hnot
    have hne : col ≠ c := fun h => hnot (by simp [h])
    have hrest : col ∉ rest := fun h => hnot (by simp [h])
    rw [List.foldl_cons, ih _ hrest]
    exact coerceFolder_getV_other cr row acc c col hne

theorem coerceFold_getV (cr : List ColumnRename) (row : Row) (col : String)
    (info : ColumnRename) (hfind : cr.find? (fun c => c.cleaned = col) = some info)
    (hval : isMissingV (getV row col) = false) :
    ∀ (cols : List String) (acc : Row), cols.Nodup → col ∈ cols →
      getV acc col = getV row col →
      getV (cols.foldl (coerceFolder cr row) acc) col =
        match info.type with
        | DType.integer =>
          (match jsParseInt (getV row col) with
            | some n => Value.num (n : ℚ)
            | none => Value.nan)
        | DType.float =>
          (match jsParseFloat (getV row col) with
            | some q => Value.num q
            | none => Value.nan)
        | DType.date =>
          (match jsDateParse (getV row col) with
            | some x => Value.str (isoDateString x)
            | none => getV row col)
        | DType.string => getV row col := by
  intro cols
  induction cols with
  | nil => intro acc _ hmem _; simp at hmem
  | cons c rest ih =>
    intro acc hnodup hmem hacc
    rw [List.foldl_cons]
    rcases List.nodup_cons.mp hnodup with ⟨hcnot, hrestnodup⟩
    by_cases hc : c = col
    · subst hc
      have hstep : coerceFolder cr row acc c = coerceCell info.type row c acc := by
        unfold coerceFolder
        rw [hfind]
      rw [hstep, coerceFold_getV_notmem cr row c rest _ hcnot,
        coerceCell_of_not_missing info.type row acc c hval]
      cases info.type with
      | integer => exact getV_setV_same acc c _
      | float => exact getV_setV_same acc c _
      | date =>
        rcases hd : jsDateParse (getV row c) with _ | x
        · exact hacc
        · exact getV_setV_same acc c _
      | string => exact hacc
    · have hmem' : col ∈ rest := by
        rcases List.mem_cons.mp hmem with h | h
        · exact absurd h.symm hc
        · exact h
      have hstep : getV (coerceFolder cr row acc c) col = getV acc col :=
        coerceFolder_getV_other cr row acc c col (fun h => hc h.symm)
      exact ih _ hrestnodup hmem' (hstep.trans hacc)

/-- C2 (amended): in the type-coercion stage, a non-missing cell of a
date-typed column that fails date parsing is left unchanged (the
exception is caught and swallowed); but a non-missing cell of an
integer- or float-typed column that fails numeric parsing is replaced
by NaN, not left unchanged. No error propagates in any case. -/
theorem c2_amended (cr : List ColumnRename) (columns : List String) (row : Row)
    (col : String) (info : ColumnRename)
    (hnodup : columns.Nodup) (hmem : col ∈ columns)
    (hfind : cr.find? (fun c => c.cleaned = col) = some info)
    (hval : isMissingV (getV row col) = false) :
    (info.type = DType.integer → jsParseInt (getV row col) = none →
      getV (coerceRow cr columns row) col = Value.nan) ∧
    (info.type = DType.float → jsParseFloat (getV row col) = none →
      getV (coerceRow cr columns row) col = Value.nan) ∧
    (info.type = DType.date → jsDateParse (getV row col) = none →
      getV (coerceRow cr columns row) col = getV row col) := by
  have hmain := coerceFold_getV cr row col info hfind hval columns row hnodup hmem rfl
  unfold coerceRow
  refine ⟨?_, ?_, ?_⟩
  · intro ht hp
    rw [hmain, ht, hp]
  · intro ht hp
    rw [hmain, ht, hp]
  · intro ht hp
    rw [hmain, ht, hp]

/-- Witness for C2 (amended): the cell `"x"` in an integer-typed column
fails `parseInt` and comes out as NaN. -/
theorem c2_amended_witness :
    jsParseInt (getV [("a", Value.str "x")] "a") = none ∧
    getV (coerceRow [⟨"a", "a", DType.integer⟩] ["a"] [("a", Value.str "x")]) "a" =
      Value.nan := by
  have h := c2_amended [⟨"a", "a", DType.integer⟩] ["a"] [("a", Value.str "x")] "a"
    ⟨"a", "a", DType.integer⟩ (by decide) (by decide) (by decide) (by decide)
  exact ⟨by decide, h.1 rfl (by decide)⟩

/-! Imputation-stage lemmas. -/

theorem isMissingV_num (q : ℚ) : isMissingV (Value.num q) = false := by
  simp [isMissingV]

theorem isMissingV_str_iff (s : String) : isMissingV (Value.str s) = false ↔ s ≠ "" := by
  simp [isMissingV]

theorem replaceMissing_fst (col : String) (repl : Value) (d : Dataset) :
    (replaceMissing col repl d).1 =
      d.map (fun row => if isMissingV (getV row col) then setV row col repl else row) := by
  induction d with
  | nil => simp [replaceMissing]
  | cons row rest ih =>
    by_cases h : isMissingV (getV row col) <;> simp [replaceMissing, h, ih]

theorem replaceMissing_snd (col : String) (repl : Value) (d : Dataset) :
    (replaceMissing col repl d).2 =
      d.countP (fun row => isMissingV (getV row col)) := by
  induction d with
  | nil => simp [replaceMissing]
  | cons row rest ih =>
    by_cases h : isMissingV (getV row col) <;> simp [replaceMissing, h, ih, List.countP_cons]

theorem replacementFor_not_missing {s : Strategy} {cv : Option String} {vs : List Value}
    {repl : Value}
    (hvs : ∀ v ∈ vs, isMissingV v = false)
    (hs : s ≠ Strategy.constant ∨ ∃ s0, cv = some s0 ∧ s0 ≠ "")
    (h : replacementFor s cv vs = Except.ok repl) :
    isMissingV repl = false := by
  simp only [replacementFor] at h
  split at h
  next hconst =>
    rcases hs with hs | ⟨s0, hcv, hne⟩
    · exact absurd hconst hs
    · rw [hcv] at h
      rw [← Except.ok.inj h]
      exact (isMissingV_str_iff s0).mpr hne
  next =>
    split at h
    · split at h
      · rw [← Except.ok.inj h]
        exact isMissingV_num _
      · split at h
        · rw [← Except.ok.inj h]
          exact isMissingV_num _
        · split at h
          next q htop =>
            rw [← Except.ok.inj h]
            exact (isMissingV_str_iff _).mpr (renderNum_ne_empty q)
          next => simp at h
    · split at h
      next k htop =>
        rw [← Except.ok.inj h]
        rcases List.mem_map.mp (topKeyBy_mem htop) with ⟨v, hv, hkey⟩
        exact (isMissingV_str_iff _).mpr (hkey ▸ keyString_ne_empty v (hvs v hv))
      next => simp at h

theorem imputeColumn_spec {s : Strategy} {cv : Option String} {st out : Dataset × Nat}
    {col : String}
    (hs : s ≠ Strategy.constant ∨ ∃ s0, cv = some s0 ∧ s0 ≠ "")
    (h : imputeColumn s cv st col = Except.ok out) :
    ∃ repl, isMissingV repl = false ∧
      out.1 = st.1.map (fun row => if isMissingV (getV row col) then setV row col repl else row) ∧
      out.2 = st.2 + st.1.countP (fun row => isMissingV (getV row col)) := by
  simp only [imputeColumn] at h
  split at h
  next hzero =>
    have hnm : ∀ row ∈ st.1, isMissingV (getV row col) = false := by
      intro row hrow
      by_contra hx
      have hpos : 0 < st.1.countP (fun row => isMissingV (getV row col)) :=
        List.countP_pos_iff.mpr ⟨row, hrow, by simpa using hx⟩
      omega
    refine ⟨Value.num 0, isMissingV_num 0, ?_, ?_⟩
    · rw [← Except.ok.inj h]
      have : st.1.map (fun row => if isMissingV (getV row col) then setV row col (Value.num 0)
          else row) = st.1.map id := by
        apply List.map_congr_left
        intro row hrow
        simp [hnm row hrow]
      rw [this, List.map_id]
    · rw [← Except.ok.inj h, hzero]
      rfl
  next =>
    split at h
    next => simp at h
    next repl hrep =>
      have hvs : ∀ v ∈ (st.1.map (fun row => getV row col)).filter
          (fun v => ¬ isMissingV v), isMissingV v = false := by
        intro v hv
        have := List.of_mem_filter hv
        simpa using this
      have hnm := replacementFor_not_missing hvs hs hrep
      refine ⟨repl, hnm, ?_, ?_⟩
      · rw [← Except.ok.inj h]
        exact replaceMissing_fst col repl st.1
      · rw [← Except.ok.inj h]
        rw [replaceMissing_snd col repl st.1]

theorem imputeFold_spec {s : Strategy} {cv : Option String}
    (hs : s ≠ Strategy.constant ∨ ∃ s0, cv = some s0 ∧ s0 ≠ "") :
    ∀ (cols : List String) (st out : Dataset × Nat),
      cols.Nodup →
      (∀ row ∈ st.1, ∀ c ∈ cols, c ∈ keysOf row) →
      List.foldlM (imputeColumn s cv) st cols = Except.ok out →
      (out.1.map keysOf = st.1.map keysOf) ∧
      (∀ c, c ∉ cols → out.1.map (fun row => getV row c) = st.1.map (fun row => getV row c)) ∧
      (∀ c ∈ cols, ∀ row ∈ out.1, isMissingV (getV row c) = false) ∧
      out.2 = st.2 +
        (cols.map (fun c => st.1.countP (fun row => isMissingV (getV row c)))).sum := by
  intro cols
  induction cols with
  | nil =>
    intro st out _ _ h
    simp only [List.foldlM, pure, Except.pure, Except.ok.injEq] at h
    subst h
    exact ⟨rfl, fun c _ => rfl, by simp, by simp⟩
  | cons c rest ih =>
    intro st out hnodup hkeys h
    rcases List.nodup_cons.mp hnodup with ⟨hcnot, hrestnodup⟩
    rw [List.foldlM_cons] at h
    rcases h2 : imputeColumn s cv st c with e | st2
    · rw [h2] at h
      simp [Bind.bind, Except.bind] at h
    · rw [h2] at h
      simp only [Bind.bind, Except.bind] at h
      rcases imputeColumn_spec hs h2 with ⟨repl, hrepl, hfst, hsnd⟩
      have hkeys1 : ∀ row ∈ st.1,
          keysOf (if isMissingV (getV row c) then setV row c repl else row) = keysOf row := by
        intro row hrow
        by_cases hm : isMissingV (getV row c)
        · rw [if_pos hm]
          exact keysOf_setV_mem row c repl (hkeys row hrow c (List.mem_cons_self c rest))
        · rw [if_neg hm]
      have F1 : st2.1.map keysOf = st.1.map keysOf := by
        rw [hfst, List.map_map]
        exact List.map_congr_left (fun row hrow => hkeys1 row hrow)
      have F2 : ∀ c', c' ≠ c → st2.1.map (fun row => getV row c') =
          st.1.map (fun row => getV row c') := by
        intro c' hne
        rw [hfst, List.map_map]
        apply List.map_congr_left
        intro row hrow
        by_cases hm : isMissingV (getV row c)
        · simp only [Function.comp_apply, if_pos hm]
          exact getV_setV_other row c c' repl hne
        · simp only [Function.comp_apply, if_neg hm]
      have F3 : ∀ row2 ∈ st2.1, isMissingV (getV row2 c) = false := by
        intro row2 hrow2
        rw [hfst] at hrow2
        rcases List.mem_map.mp hrow2 with ⟨row, hrow, hrow2eq⟩
        rw [← hrow2eq]
        by_cases hm : isMissingV (getV row c)
        · rw [if_pos hm, getV_setV_same]
          exact hrepl
        · rw [if_neg hm]
          simpa using hm
      have F5 : ∀ row2 ∈ st2.1, ∀ c' ∈ rest, c' ∈ keysOf row2 := by
        intro row2 hrow2 c' hc'
        rw [hfst] at hrow2
        rcases List.mem_map.mp hrow2 with ⟨row, hrow, hrow2eq⟩
        rw [← hrow2eq, hkeys1 row hrow]
        exact hkeys row hrow c' (List.mem_cons_of_mem c hc')
      have F6 : ∀ c' ∈ rest, st2.1.countP (fun row => isMissingV (getV row c')) =
          st.1.countP (fun row => isMissingV (getV row c')) := by
        intro c' hc'
        have hne : c' ≠ c := fun hx => hcnot (hx ▸ hc')
        have e1 : st2.1.countP (fun row => isMissingV (getV row c')) =
            (st2.1.map (fun row => getV row c')).countP (fun v => isMissingV v) := by
          rw [List.countP_map]
          rfl
        have e2 : st.1.countP (fun row => isMissingV (getV row c')) =
            (st.1.map (fun row => getV row c')).countP (fun v => isMissingV v) := by
          rw [List.countP_map]
          rfl
        rw [e1, e2, F2 c' hne]
      rcases ih st2 out hrestnodup F5 h with ⟨i1, i2, i3, i4⟩
      refine ⟨i1.trans F1, ?_, ?_, ?_⟩
      · intro c' hnotin
        have hne : c' ≠ c := fun hx => hnotin (by simp [hx])
        have hrest : c' ∉ rest := fun hx => hnotin (by simp [hx])
        exact (i2 c' hrest).trans (F2 c' hne)
      · intro c' hc' row hrow
        rcases List.mem_cons.mp hc' with hceq | hcr
        · subst hceq
          have hmem : getV row c' ∈ out.1.map (fun row => getV row c') :=
            List.mem_map_of_mem _ hrow
          rw [i2 c' hcnot] at hmem
          rcases List.mem_map.mp hmem with ⟨row2, hrow2, heq⟩
          rw [← heq]
          exact F3 row2 hrow2
        · exact i3 c' hcr row hrow
      · rw [i4, hsnd]
        have hsum : (rest.map (fun c' =>
              st2.1.countP (fun row => isMissingV (getV row c')))).sum =
            (rest.map (fun c' =>
              st.1.countP (fun row => isMissingV (getV row c')))).sum := by
          congr 1
          exact List.map_congr_left (fun c' hc' => F6 c' hc')
        rw [hsum]
        simp only [List.map_cons, List.sum_cons]
        omega

/-- C1 (amended): for a uniform dataset (all rows share the first row's
key set, without duplicate keys), with strategy `mean`, `median` or
`mode`, or `constant` with a supplied non-empty `constantValue`, when
the imputation stage completes it leaves no missing cell anywhere (in
particular none in a previously-missing position), and
`nullValuesFixed` grows by exactly the number of missing cells, one per
replaced cell. With `constant` and no `constantValue` the stage is
skipped entirely, and with `constantValue = ""` the replacement itself
is missing — the two cases the counterexample exhibits. -/
theorem c1_imputation_completeness (opts : Options) (data : Dataset) (fixed : Nat)
    (r0 : Row) (out : Dataset × Nat)
    (hhead : data.head? = some r0)
    (huniform : ∀ row ∈ data, keysOf row = keysOf r0)
    (hnodup : (keysOf r0).Nodup)
    (hs : opts.missingValueStrategy ≠ Strategy.constant ∨
      ∃ s0, opts.constantValue = some s0 ∧ s0 ≠ "")
    (h : imputeStep opts data fixed = Except.ok out) :
    (∀ row ∈ out.1, ∀ p ∈ row, isMissingV p.2 = false) ∧
    out.2 = fixed +
      ((keysOf r0).map (fun c => data.countP (fun row => isMissingV (getV row c)))).sum := by
  have hgate : opts.missingValueStrategy ≠ Strategy.constant ∨ opts.constantValue ≠ none := by
    rcases hs with h1 | ⟨s0, hcv, _⟩
    · exact Or.inl h1
    · exact Or.inr (by simp [hcv])
  unfold imputeStep at h
  rw [if_pos hgate] at h
  have hheadD : data.headD [] = r0 := by
    cases data with
    | nil => simp at hhead
    | cons a l => simpa using hhead
  rw [hheadD] at h
  have hkeys : ∀ row ∈ data, ∀ c ∈ keysOf r0, c ∈ keysOf row := by
    intro row hrow c hc
    rw [huniform row hrow]
    exact hc
  rcases imputeFold_spec hs (keysOf r0) (data, fixed) out hnodup hkeys h with ⟨i1, i2, i3, i4⟩
  constructor
  · intro row hrow p hp
    have hkrow : keysOf row ∈ out.1.map keysOf := List.mem_map_of_mem _ hrow
    rw [i1] at hkrow
    rcases List.mem_map.mp hkrow with ⟨row0, hrow0, hkeq⟩
    have hkeys_row : keysOf row = keysOf r0 := by
      rw [← hkeq]
      exact huniform row0 hrow0
    have hnodup_row : (keysOf row).Nodup := by
      rw [hkeys_row]
      exact hnodup
    have hv := getV_of_mem_nodup row p hp hnodup_row
    have hpkey : p.1 ∈ keysOf r0 := by
      rw [← hkeys_row]
      exact List.mem_map_of_mem Prod.fst hp
    rw [← hv]
    exact i3 p.1 hpkey row hrow
  · exact i4

/-- Witness for C1 (amended): the all-missing one-cell dataset imputed
with constant `"0"` comes out fully non-missing with one fixed cell. -/
theorem c1_imputation_completeness_witness :
    (∀ row ∈ (([[("a", Value.str "0")]], 1) : Dataset × Nat).1, ∀ p ∈ row,
      isMissingV p.2 = false) ∧
    (([[("a", Value.str "0")]], 1) : Dataset × Nat).2 = 0 +
      ((keysOf [("a", Value.str "")]).map
        (fun c => ([[("a", Value.str "")]] : Dataset).countP
          (fun row => isMissingV (getV row c)))).sum :=
  c1_imputation_completeness ⟨false, false, false, Strategy.constant, some "0"⟩
    [[("a", Value.str "")]] 0 [("a", Value.str "")] ([[("a", Value.str "0")]], 1)
    rfl (by decide) (by decide) (Or.inr ⟨"0", rfl, by decide⟩) (by decide)

/-! Heap-level embedding for the non-mutation guarantee. Rows live on a
heap of JS objects and datasets are lists of references, mirroring how
the pipeline holds references into the caller's `rawData` array. Every
object operation of `cleanData` either reads a row (`row[col]`,
`Object.keys`, `JSON.stringify`) or builds a fresh object (`{...row}`,
`{...row, [col]: v}`, the rename loop's `newRow`), modelled as an
allocation; no operation writes through an existing reference. -/

/-- A heap of row objects; a reference is an index into the allocation
list. -/
abbrev Heap := List Row

/-- Dereference a row reference. -/
def readH (h : Heap) (i : Nat) : Row := h.getD i []

/-- Allocate one fresh object, returning the extended heap and the new
reference. -/
def allocH (h : Heap) (r : Row) : Heap × Nat := (h ++ [r], h.length)

/-- Allocate a list of objects left to right. -/
def allocList (h : Heap) (rs : List Row) : Heap × List Nat :=
  match rs with
  | [] => (h, [])
  | r :: rest =>
    let a := allocH h r
    let b := allocList a.1 rest
    (b.1, a.2 :: b.2)

/-- Step 1 on the heap: the column mapping and stats are computed by
reading the referenced rows; each `newRow` built by the rename loop is
a fresh allocation. -/
def standardizeH (options : Options) (h : Heap) (ids : List Nat) (stats : Stats) :
    Option (Heap × List Nat × Stats) :=
  if options.standardizeColumnNames then
    ((keysOf ((ids.map (readH h)).headD [])).foldlM (stdColumn (ids.map (readH h)))
        ⟨[], stats.columnsRenamed, stats.dataTypeSummary⟩).map (fun acc =>
      ((allocList h ((ids.map (readH h)).map (renameRow acc.mapping))).1,
        (allocList h ((ids.map (readH h)).map (renameRow acc.mapping))).2,
        { stats with
            columnsRenamed := acc.columnsRenamed
            dataTypeSummary := acc.dataTypeSummary }))
  else some (h, ids, stats)

/-- Step 2 on the heap: `filter` keeps the existing references of
non-duplicate rows; nothing is allocated or written. -/
def dedupeGoH (h : Heap) (seen : List Row) : List Nat → List Nat
  | [] => []
  | i :: rest =>
    if rowKey (readH h i) ∈ seen then dedupeGoH h seen rest
    else i :: dedupeGoH h (rowKey (readH h i) :: seen) rest

/-- Step 2 on the heap, with the removed-row count. -/
def dedupeStepH (h : Heap) (ids : List Nat) : List Nat × Nat :=
  ((dedupeGoH h [] ids), ids.length - (dedupeGoH h [] ids).length)

/-- Impute one column on the heap: `{...row, [col]: replacement}`
allocates a fresh object per replaced row; rows without a missing cell
keep their reference. -/
def replaceMissingH (col : String) (repl : Value) : Heap → List Nat → Heap × List Nat × Nat
  | h, [] => (h, [], 0)
  | h, i :: rest =>
    if isMissingV (getV (readH h i) col) then
      let a := allocH h (setV (readH h i) col repl)
      let b := replaceMissingH col repl a.1 rest
      (b.1, a.2 :: b.2.1, b.2.2 + 1)
    else
      let b := replaceMissingH col repl h rest
      (b.1, i :: b.2.1, b.2.2)

/-- One column of the imputation `forEach` on the heap. -/
def imputeColumnH (s : Strategy) (cv : Option String) (st : Heap × List Nat × Nat)
    (col : String) : Except CleanError (Heap × List Nat × Nat) :=
  if (st.2.1.map (readH st.1)).countP (fun row => isMissingV (getV row col)) = 0 then
    Except.ok st
  else
    match replacementFor s cv
        (((st.2.1.map (readH st.1)).map (fun row => getV row col)).filter
          (fun v => ¬ isMissingV v)) with
    | Except.error e => Except.error e
    | Except.ok repl =>
      ((replaceMissingH col repl st.1 st.2.1).1,
        (replaceMissingH col repl st.1 st.2.1).2.1,
        st.2.2 + (replaceMissingH col repl st.1 st.2.1).2.2) |> Except.ok

/-- Step 3 on the heap. -/
def imputeStepH (options : Options) (h : Heap) (ids : List Nat) (fixed : Nat) :
    Except CleanError (Heap × List Nat × Nat) :=
  if options.missingValueStrategy ≠ Strategy.constant ∨ options.constantValue ≠ none then
    (keysOf ((ids.map (readH h)).headD [])).foldlM
      (imputeColumnH options.missingValueStrategy options.constantValue) (h, ids, fixed)
  else Except.ok (h, ids, fixed)

/-- Lower IQR bound of a list of parsed values (positional quartiles on
the sorted list). -/
def outlierLow (nv : List ℚ) : ℚ :=
  (sortBy (fun x y => decide (x < y)) nv).getD (nv.length * 25 / 100) 0 -
    3 / 2 * ((sortBy (fun x y => decide (x < y)) nv).getD (nv.length * 75 / 100) 0 -
      (sortBy (fun x y => decide (x < y)) nv).getD (nv.length * 25 / 100) 0)

/-- Upper IQR bound of a list of parsed values. -/
def outlierHigh (nv : List ℚ) : ℚ :=
  (sortBy (fun x y => decide (x < y)) nv).getD (nv.length * 75 / 100) 0 +
    3 / 2 * ((sortBy (fun x y => decide (x < y)) nv).getD (nv.length * 75 / 100) 0 -
      (sortBy (fun x y => decide (x < y)) nv).getD (nv.length * 25 / 100) 0)

/-- One column of the outlier `forEach` on the heap: a pure filter of
the reference list. -/
def outlierColumnH (h : Heap) (st : List Nat × Nat) (col : String) : List Nat × Nat :=
  if (st.1.filterMap (fun i => jsParseFloat (getV (readH h i) col))).length = 0 then st
  else
    ((st.1.filter (fun i => !isOutlierAt
        (outlierLow (st.1.filterMap (fun i => jsParseFloat (getV (readH h i) col))))
        (outlierHigh (st.1.filterMap (fun i => jsParseFloat (getV (readH h i) col))))
        col (readH h i))),
      st.2 + st.1.countP (fun i => isOutlierAt
        (outlierLow (st.1.filterMap (fun i => jsParseFloat (getV (readH h i) col))))
        (outlierHigh (st.1.filterMap (fun i => jsParseFloat (getV (readH h i) col))))
        col (readH h i)))

/-- Step 4 on the heap. -/
def outlierStepH (options : Options) (h : Heap) (ids : List Nat) (count : Nat) :
    List Nat × Nat :=
  if options.removeOutliers then
    (keysOf ((ids.map (readH h)).headD [])).foldl (outlierColumnH h) (ids, count)
  else (ids, count)

/-- Step 5 on the heap: each `{...row}` copy is a fresh allocation. -/
def coerceStepH (options : Options) (cr : List ColumnRename) (h : Heap) (ids : List Nat) :
    Heap × List Nat :=
  if options.fixDataTypes then
    allocList h ((ids.map (readH h)).map
      (coerceRow cr (keysOf ((ids.map (readH h)).headD []))))
  else (h, ids)

/-- The orchestrator on the heap. -/
def cleanDataH (h : Heap) (rawIds : List Nat) (options : Options) :
    Except CleanError (Heap × List Nat × Stats) :=
  if rawIds.length = 0 then Except.error CleanError.invalidInput
  else
    match standardizeH options h rawIds (initStats (rawIds.map (readH h))) with
    | none => Except.error CleanError.typeError
    | some (h1, ids1, stats1) =>
      match imputeStepH options h1 (dedupeStepH h1 ids1).1 0 with
      | Except.error e => Except.error e
      | Except.ok (h3, ids3, fixed) =>
        Except.ok ((coerceStepH options stats1.columnsRenamed h3
            (outlierStepH options h3 ids3 0).1).1,
          (coerceStepH options stats1.columnsRenamed h3
            (outlierStepH options h3 ids3 0).1).2,
          { stats1 with
              duplicatesRemoved := (dedupeStepH h1 ids1).2
              nullValuesFixed := fixed
              outlierCount := (outlierStepH options h3 ids3 0).2 })

/-! Heap-extension lemmas: every stage only appends allocations. -/

theorem readH_append (h ext : Heap) (i : Nat) (hi : i < h.length) :
    readH (h ++ ext) i = readH h i := by
  unfold readH
  rw [List.getD_eq_getElem?_getD, List.getD_eq_getElem?_getD, List.getElem?_append,
    if_pos hi]

theorem allocList_ext (rs : List Row) : ∀ h : Heap, ∃ ext, (allocList h rs).1 = h ++ ext := by
  induction rs with
  | nil => intro h; exact ⟨[], by simp [allocList]⟩
  | cons r rest ih =>
    intro h
    obtain ⟨ext, hext⟩ := ih (h ++ [r])
    exact ⟨[r] ++ ext, by simp [allocList, allocH, hext]⟩

theorem standardizeH_ext {opts : Options} {h : Heap} {ids : List Nat} {stats : Stats}
    {out : Heap × List Nat × Stats} (hs : standardizeH opts h ids stats = some out) :
    ∃ ext, out.1 = h ++ ext := by
  simp only [standardizeH] at hs
  split at hs
  · rcases hfold : (keysOf ((ids.map (readH h)).headD [])).foldlM (stdColumn (ids.map (readH h)))
        ⟨[], stats.columnsRenamed, stats.dataTypeSummary⟩ with _ | acc
    · rw [hfold] at hs
      simp at hs
    · rw [hfold] at hs
      simp only [Option.map_some'] at hs
      rw [← Option.some_inj.mp hs]
      exact allocList_ext _ h
  · rw [← Option.some_inj.mp hs]
    exact ⟨[], by simp⟩

theorem replaceMissingH_ext (col : String) (repl : Value) :
    ∀ (ids : List Nat) (h : Heap), ∃ ext, (replaceMissingH col repl h ids).1 = h ++ ext := by
  intro ids
  induction ids with
  | nil => intro h; exact ⟨[], by simp [replaceMissingH]⟩
  | cons i rest ih =>
    intro h
    by_cases hm : isMissingV (getV (readH h i) col)
    · obtain ⟨ext, hext⟩ := ih (h ++ [setV (readH h i) col repl])
      refine ⟨[setV (readH h i) col repl] ++ ext, ?_⟩
      simp [replaceMissingH, hm, allocH, hext]
    · obtain ⟨ext, hext⟩ := ih h
      exact ⟨ext, by simp [replaceMissingH, hm, hext]⟩

theorem imputeColumnH_ext {s : Strategy} {cv : Option String} {st out : Heap × List Nat × Nat}
    {col : String} (h2 : imputeColumnH s cv st col = Except.ok out) :
    ∃ ext, out.1 = st.1 ++ ext := by
  simp only [imputeColumnH] at h2
  split at h2
  · rw [← Except.ok.inj h2]
    exact ⟨[], by simp⟩
  · split at h2
    · simp at h2
    · rw [← Except.ok.inj h2]
      exact replaceMissingH_ext col _ st.2.1 st.1

theorem imputeFoldH_ext {s : Strategy} {cv : Option String} :
    ∀ (cols : List String) (st out : Heap × List Nat × Nat),
      List.foldlM (imputeColumnH s cv) st cols = Except.ok out →
      ∃ ext, out.1 = st.1 ++ ext := by
  intro cols
  induction cols with
  | nil =>
    intro st out h
    simp only [List.foldlM, pure, Except.pure, Except.ok.injEq] at h
    subst h
    exact ⟨[], by simp⟩
  | cons c rest ih =>
    intro st out h
    rw [List.foldlM_cons] at h
    rcases h2 : imputeColumnH s cv st c with e | st2
    · rw [h2] at h
      simp [Bind.bind, Except.bind] at h
    · rw [h2] at h
      simp only [Bind.bind, Except.bind] at h
      obtain ⟨e1, he1⟩ := imputeColumnH_ext h2
      obtain ⟨e2, he2⟩ := ih st2 out h
      exact ⟨e1 ++ e2, by rw [he2, he1, List.append_assoc]⟩

theorem imputeStepH_ext {opts : Options} {h : Heap} {ids : List Nat} {fixed : Nat}
    {out : Heap × List Nat × Nat} (himp : imputeStepH opts h ids fixed = Except.ok out) :
    ∃ ext, out.1 = h ++ ext := by
  unfold imputeStepH at himp
  split at himp
  · exact imputeFoldH_ext _ _ _ himp
  · rw [← Except.ok.inj himp]
    exact ⟨[], by simp⟩

theorem coerceStepH_ext (opts : Options) (cr : List ColumnRename) (h : Heap)
    (ids : List Nat) : ∃ ext, (coerceStepH opts cr h ids).1 = h ++ ext := by
  unfold coerceStepH
  split
  · exact allocList_ext _ h
  · exact ⟨[], by simp⟩

/-! Correspondence between the heap embedding and the pure embedding:
running the heap pipeline and dereferencing the resulting references
yields exactly the pure pipeline's result on the dereferenced input. -/

theorem readH_allocTop (h : Heap) (r : Row) : readH (h ++ [r]) h.length = r := by
  unfold readH
  rw [List.getD_eq_getElem?_getD, List.getElem?_append, if_neg (lt_irrefl _)]
  simp

theorem allocList_spec (rs : List Row) : ∀ h : Heap,
    ((allocList h rs).2).map (readH (allocList h rs).1) = rs ∧
    ∀ i ∈ (allocList h rs).2, i < (allocList h rs).1.length := by
  induction rs with
  | nil => intro h; exact ⟨rfl, by simp [allocList]⟩
  | cons r rest ih =>
    intro h
    obtain ⟨hreads, hvalid⟩ := ih (h ++ [r])
    obtain ⟨ext, hext⟩ := allocList_ext rest (h ++ [r])
    have hlen : h.length < (h ++ [r]).length := by simp
    constructor
    · simp only [allocList, allocH, List.map_cons]
      rw [show (allocList (h ++ [r]) rest).1 = (h ++ [r]) ++ ext from hext,
        readH_append _ _ _ hlen, readH_allocTop h r, ← hext, hreads]
    · intro i hi
      simp only [allocList, allocH, List.mem_cons] at hi
      rcases hi with hi | hi
      · subst hi
        simp only [allocList, allocH]
        rw [show (allocList (h ++ [r]) rest).1 = (h ++ [r]) ++ ext from hext]
        simp only [List.length_append]
        simp at hlen ⊢
        omega
      · exact hvalid i hi

theorem dedupeGoH_reads (h : Heap) : ∀ (ids : List Nat) (seen : List Row),
    (dedupeGoH h seen ids).map (readH h) = dedupeGo seen (ids.map (readH h)) := by
  intro ids
  induction ids with
  | nil => intro seen; rfl
  | cons i rest ih =>
    intro seen
    by_cases hk : rowKey (readH h i) ∈ seen
    · simp [dedupeGoH, dedupeGo, hk, ih]
    · simp [dedupeGoH, dedupeGo, hk, ih]

theorem dedupeGoH_subset (h : Heap) : ∀ (ids : List Nat) (seen : List Row),
    ∀ i ∈ dedupeGoH h seen ids, i ∈ ids := by
  intro ids
  induction ids with
  | nil => intro seen i hi; simp [dedupeGoH] at hi
  | cons j rest ih =>
    intro seen i hi
    by_cases hk : rowKey (readH h j) ∈ seen
    · simp only [dedupeGoH, if_pos hk] at hi
      exact List.mem_cons_of_mem j (ih _ i hi)
    · simp only [dedupeGoH, if_neg hk, List.mem_cons] at hi
      rcases hi with hi | hi
      · simp [hi]
      · exact List.mem_cons_of_mem j (ih _ i hi)

theorem dedupeStepH_model (h : Heap) (ids : List Nat) :
    (dedupeStepH h ids).1.map (readH h) = (dedupeStep (ids.map (readH h))).1 ∧
    (dedupeStepH h ids).2 = (dedupeStep (ids.map (readH h))).2 := by
  have hreads := dedupeGoH_reads h ids []
  refine ⟨hreads, ?_⟩
  unfold dedupeStepH dedupeStep
  have hlen : (dedupeGoH h [] ids).length = (dedupeGo [] (ids.map (readH h))).length := by
    rw [← hreads, List.length_map]
  simp only [hlen, List.length_map]

theorem replaceMissingH_model (col : String) (repl : Value) :
    ∀ (ids : List Nat) (h : Heap), (∀ i ∈ ids, i < h.length) →
      ((replaceMissingH col repl h ids).2.1).map (readH (replaceMissingH col repl h ids).1) =
        (replaceMissing col repl (ids.map (readH h))).1 ∧
      (replaceMissingH col repl h ids).2.2 = (replaceMissing col repl (ids.map (readH h))).2 ∧
      (∀ j ∈ (replaceMissingH col repl h ids).2.1,
        j < (replaceMissingH col repl h ids).1.length) := by
  intro ids
  induction ids with
  | nil =>
    intro h _
    exact ⟨rfl, rfl, by simp [replaceMissingH]⟩
  | cons i rest ih =>
    intro h hvalid
    have hival : i < h.length := hvalid i (List.mem_cons_self i rest)
    by_cases hm : isMissingV (getV (readH h i) col)
    · have hvalid' : ∀ j ∈ rest, j < (h ++ [setV (readH h i) col repl]).length := by
        intro j hj
        have := hvalid j (List.mem_cons_of_mem i hj)
        simp only [List.length_append, List.length_cons]
        omega
      obtain ⟨ihreads, ihcount, ihvalid⟩ := ih (h ++ [setV (readH h i) col repl]) hvalid'
      obtain ⟨ext, hext⟩ :=
        replaceMissingH_ext col repl rest (h ++ [setV (readH h i) col repl])
      have hreadrest : rest.map (readH (h ++ [setV (readH h i) col repl])) =
          rest.map (readH h) := by
        apply List.map_congr_left
        intro j hj
        exact readH_append h _ j (hvalid j (List.mem_cons_of_mem i hj))
      have hlen : h.length < (h ++ [setV (readH h i) col repl]).length := by simp
      refine ⟨?_, ?_, ?_⟩
      · simp only [replaceMissingH, hm, if_true, allocH, List.map_cons]
        rw [hext, readH_append _ _ _ hlen, readH_allocTop, ← hext, ihreads, hreadrest]
        simp [replaceMissing, hm]
      · simp only [replaceMissingH, hm, if_true, allocH]
        rw [ihcount, hreadrest]
        simp [replaceMissing, hm]
      · intro j hj
        simp only [replaceMissingH, hm, if_true, allocH, List.mem_cons] at hj ⊢
        rcases hj with hj | hj
        · subst hj
          rw [hext]
          simp only [List.length_append, List.length_cons]
          omega
        · exact ihvalid j hj
    · obtain ⟨ihreads, ihcount, ihvalid⟩ := ih h (fun j hj =>
        hvalid j (List.mem_cons_of_mem i hj))
      obtain ⟨ext, hext⟩ := replaceMissingH_ext col repl rest h
      refine ⟨?_, ?_, ?_⟩
      · simp only [replaceMissingH, hm, if_false, Bool.false_eq_true, List.map_cons]
        rw [hext, readH_append _ _ _ hival, ← hext, ihreads]
        simp [replaceMissing, hm]
      · simp only [replaceMissingH, hm, if_false, Bool.false_eq_true]
        rw [ihcount]
        simp [replaceMissing, hm]
      · intro j hj
        simp only [replaceMissingH, hm, if_false, Bool.false_eq_true, List.mem_cons] at hj ⊢
        rcases hj with hj | hj
        · subst hj
          rw [hext]
          simp only [List.length_append]
          omega
        · exact ihvalid j hj

theorem imputeColumnH_model {s : Strategy} {cv : Option String} (st : Heap × List Nat × Nat)
    (col : String) (hvalid : ∀ i ∈ st.2.1, i < st.1.length) :
    match imputeColumnH s cv st col,
        imputeColumn s cv (st.2.1.map (readH st.1), st.2.2) col with
    | Except.error e, Except.error e' => e = e'
    | Except.ok o, Except.ok p =>
        o.2.1.map (readH o.1) = p.1 ∧ o.2.2 = p.2 ∧ (∀ i ∈ o.2.1, i < o.1.length)
    | _, _ => False := by
  by_cases hz : (st.2.1.map (readH st.1)).countP (fun row => isMissingV (getV row col)) = 0
  · simp only [imputeColumnH, imputeColumn, hz, if_pos]
    exact ⟨by simp, by simp, hvalid⟩
  · simp only [imputeColumnH, imputeColumn, hz, if_neg, if_false]
    rcases hrep : replacementFor s cv
        (((st.2.1.map (readH st.1)).map (fun row => getV row col)).filter
          (fun v => ¬ isMissingV v)) with e | repl
    · simp
    · obtain ⟨hreads, hcount, hval⟩ := replaceMissingH_model col repl st.2.1 st.1 hvalid
      exact ⟨hreads, by rw [hcount], hval⟩

theorem imputeFoldH_model {s : Strategy} {cv : Option String} :
    ∀ (cols : List String) (st : Heap × List Nat × Nat),
      (∀ i ∈ st.2.1, i < st.1.length) →
      match List.foldlM (imputeColumnH s cv) st cols,
          List.foldlM (imputeColumn s cv) (st.2.1.map (readH st.1), st.2.2) cols with
      | Except.error e, Except.error e' => e = e'
      | Except.ok o, Except.ok p =>
          o.2.1.map (readH o.1) = p.1 ∧ o.2.2 = p.2 ∧ (∀ i ∈ o.2.1, i < o.1.length)
      | _, _ => False := by
  intro cols
  induction cols with
  | nil =>
    intro st hvalid
    simp only [List.foldlM, pure, Except.pure]
    exact ⟨by simp, by simp, hvalid⟩
  | cons c rest ih =>
    intro st hvalid
    rw [List.foldlM_cons, List.foldlM_cons]
    have hcol := @imputeColumnH_model s cv st c hvalid
    rcases hH : imputeColumnH s cv st c with e | o <;>
      rcases hP : imputeColumn s cv (st.2.1.map (readH st.1), st.2.2) c with e' | p <;>
      rw [hH, hP] at hcol <;> simp only [Bind.bind, Except.bind]
    · exact hcol
    · exact absurd hcol (by simp)
    · exact absurd hcol (by simp)
    · obtain ⟨hreads, hcount, hval⟩ := hcol
      have := ih o hval
      rw [hreads, hcount] at this
      have hp : p = (p.1, p.2) := rfl
      rw [← hp] at this
      exact this

theorem imputeStepH_model (opts : Options) (h : Heap) (ids : List Nat) (fixed : Nat)
    (hvalid : ∀ i ∈ ids, i < h.length) :
    match imputeStepH opts h ids fixed, imputeStep opts (ids.map (readH h)) fixed with
    | Except.error e, Except.error e' => e = e'
    | Except.ok o, Except.ok p =>
        o.2.1.map (readH o.1) = p.1 ∧ o.2.2 = p.2 ∧ (∀ i ∈ o.2.1, i < o.1.length)
    | _, _ => False := by
  by_cases hgate : opts.missingValueStrategy ≠ Strategy.constant ∨ opts.constantValue ≠ none
  · unfold imputeStepH imputeStep
    rw [if_pos hgate, if_pos hgate]
    exact imputeFoldH_model _ (h, ids, fixed) hvalid
  · unfold imputeStepH imputeStep
    rw [if_neg hgate, if_neg hgate]
    exact ⟨by simp, by simp, hvalid⟩

theorem standardizeH_model (opts : Options) (h : Heap) (ids : List Nat) (stats : Stats)
    (hvalid : ∀ i ∈ ids, i < h.length) :
    match standardizeH opts h ids stats, standardizeStep opts (ids.map (readH h)) stats with
    | none, none => True
    | some o, some p =>
        o.2.1.map (readH o.1) = p.1 ∧ o.2.2 = p.2 ∧ (∀ i ∈ o.2.1, i < o.1.length)
    | _, _ => False := by
  by_cases hstd : opts.standardizeColumnNames
  · unfold standardizeH standardizeStep
    rw [if_pos hstd, if_pos hstd]
    rcases hfold : (keysOf ((ids.map (readH h)).headD [])).foldlM
        (stdColumn (ids.map (readH h)))
        ⟨[], stats.columnsRenamed, stats.dataTypeSummary⟩ with _ | acc
    · simp only [hfold]
      simp
    · simp only [hfold, Option.map_some']
      obtain ⟨hreads, hval⟩ :=
        allocList_spec ((ids.map (readH h)).map (renameRow acc.mapping)) h
      exact ⟨hreads, by simp, hval⟩
  · unfold standardizeH standardizeStep
    rw [if_neg hstd, if_neg hstd]
    exact ⟨by simp, by simp, hvalid⟩

theorem outlierColumnH_model (h : Heap) (st : List Nat × Nat) (col : String) :
    (outlierColumnH h st col).1.map (readH h) =
      (outlierColumn (st.1.map (readH h), st.2) col).1 ∧
    (outlierColumnH h st col).2 = (outlierColumn (st.1.map (readH h), st.2) col).2 ∧
    (∀ i ∈ (outlierColumnH h st col).1, i ∈ st.1) := by
  have hfm : st.1.filterMap (fun i => jsParseFloat (getV (readH h i) col)) =
      (st.1.map (readH h)).filterMap (fun row => jsParseFloat (getV row col)) := by
    rw [List.filterMap_map]
    rfl
  by_cases hz : (st.1.filterMap (fun i => jsParseFloat (getV (readH h i) col))).length = 0
  · have hz' : ((st.1.map (readH h)).filterMap
        (fun row => jsParseFloat (getV row col))).length = 0 := by
      rw [← hfm]
      exact hz
    simp only [outlierColumnH, outlierColumn, hz, hz', if_pos]
    exact ⟨by simp, by simp, fun i hi => hi⟩
  · have hz' : ¬ ((st.1.map (readH h)).filterMap
        (fun row => jsParseFloat (getV row col))).length = 0 := by
      rw [← hfm]
      exact hz
    simp only [outlierColumnH, outlierColumn, hz, hz', if_neg, if_false]
    have hlow : outlierLow (st.1.filterMap (fun i => jsParseFloat (getV (readH h i) col))) =
        (let nv := (st.1.map (readH h)).filterMap (fun row => jsParseFloat (getV row col))
         let sorted := sortBy (fun x y => decide (x < y)) nv
         sorted.getD (sorted.length * 25 / 100) 0 -
           3 / 2 * (sorted.getD (sorted.length * 75 / 100) 0 -
             sorted.getD (sorted.length * 25 / 100) 0)) := by
      simp only [outlierLow, hfm, length_sortBy]
    have hhigh : outlierHigh (st.1.filterMap (fun i => jsParseFloat (getV (readH h i) col))) =
        (let nv := (st.1.map (readH h)).filterMap (fun row => jsParseFloat (getV row col))
         let sorted := sortBy (fun x y => decide (x < y)) nv
         sorted.getD (sorted.length * 75 / 100) 0 +
           3 / 2 * (sorted.getD (sorted.length * 75 / 100) 0 -
             sorted.getD (sorted.length * 25 / 100) 0)) := by
      simp only [outlierHigh, hfm, length_sortBy]
    refine ⟨?_, ?_, ?_⟩
    · simp only [hlow, hhigh]
      rw [List.filter_map]
      rfl
    · simp only [hlow, hhigh]
      rw [List.countP_map]
      rfl
    · intro i hi
      exact List.mem_of_mem_filter hi

theorem outlierFoldH_model (h : Heap) : ∀ (cols : List String) (st : List Nat × Nat),
    ((cols.foldl (outlierColumnH h) st).1.map (readH h),
      (cols.foldl (outlierColumnH h) st).2) =
      cols.foldl outlierColumn (st.1.map (readH h), st.2) ∧
    (∀ i ∈ (cols.foldl (outlierColumnH h) st).1, i ∈ st.1) := by
  intro cols
  induction cols with
  | nil => intro st; exact ⟨rfl, fun i hi => hi⟩
  | cons c rest ih =>
    intro st
    rw [List.foldl_cons, List.foldl_cons]
    obtain ⟨hreads, hcount, hsub⟩ := outlierColumnH_model h st c
    obtain ⟨ihpair, ihsub⟩ := ih (outlierColumnH h st c)
    constructor
    · rw [ihpair]
      congr 1
      exact Prod.ext hreads hcount
    · intro i hi
      exact hsub i (ihsub i hi)

theorem outlierStepH_model (opts : Options) (h : Heap) (ids : List Nat) (n : Nat) :
    ((outlierStepH opts h ids n).1.map (readH h), (outlierStepH opts h ids n).2) =
      outlierStep opts (ids.map (readH h)) n ∧
    ∀ i ∈ (outlierStepH opts h ids n).1, i ∈ ids := by
  by_cases hr : opts.removeOutliers
  · unfold outlierStepH outlierStep
    rw [if_pos hr, if_pos hr]
    exact outlierFoldH_model h _ (ids, n)
  · unfold outlierStepH outlierStep
    rw [if_neg hr, if_neg hr]
    exact ⟨rfl, fun i hi => hi⟩

theorem coerceStepH_model (opts : Options) (cr : List ColumnRename) (h : Heap)
    (ids : List Nat) :
    ((coerceStepH opts cr h ids).2).map (readH (coerceStepH opts cr h ids).1) =
      coerceStep opts cr (ids.map (readH h)) := by
  by_cases hf : opts.fixDataTypes
  · unfold coerceStepH coerceStep
    rw [if_pos hf, if_pos hf]
    exact (allocList_spec _ h).1
  · unfold coerceStepH coerceStep
    rw [if_neg hf, if_neg hf]

/-- The heap pipeline computes exactly the pure pipeline: on a valid
reference list, `cleanDataH` fails with the same error as `cleanData`
on the dereferenced rows, or returns references whose dereferencing
gives the pure cleaned dataset together with the same stats. -/
theorem cleanDataH_models (h : Heap) (rawIds : List Nat) (opts : Options)
    (hvalid : ∀ i ∈ rawIds, i < h.length) :
    match cleanDataH h rawIds opts, cleanData (rawIds.map (readH h)) opts with
    | Except.error e, Except.error e' => e = e'
    | Except.ok o, Except.ok res =>
        o.2.1.map (readH o.1) = res.cleanedData ∧ o.2.2 = res.stats
    | _, _ => False := by
  unfold cleanDataH cleanData
  by_cases hlen : rawIds.length = 0
  · rw [if_pos hlen, if_pos (by simp [hlen])]
  · rw [if_neg hlen, if_neg (by simp [hlen])]
    have hstdm := standardizeH_model opts h rawIds (initStats (rawIds.map (readH h))) hvalid
    rcases hstdH : standardizeH opts h rawIds (initStats (rawIds.map (readH h)))
        with _ | ⟨h1, ids1, stats1⟩
    · rcases hstdP : standardizeStep opts (rawIds.map (readH h))
          (initStats (rawIds.map (readH h))) with _ | ⟨data1, stats1'⟩
      · rfl
      · rw [hstdH, hstdP] at hstdm
        simp at hstdm
    · rcases hstdP : standardizeStep opts (rawIds.map (readH h))
          (initStats (rawIds.map (readH h))) with _ | ⟨data1, stats1'⟩
      · rw [hstdH, hstdP] at hstdm
        simp at hstdm
      · rw [hstdH, hstdP] at hstdm
        obtain ⟨hreads1, hstats1, hval1⟩ := hstdm
        dsimp only at hreads1 hstats1 hval1 ⊢
        have hded := dedupeStepH_model h1 ids1
        rw [hreads1] at hded
        have hdvalid : ∀ i ∈ (dedupeStepH h1 ids1).1, i < h1.length := fun i hi =>
          hval1 i (dedupeGoH_subset h1 ids1 [] i hi)
        have himpm := imputeStepH_model opts h1 (dedupeStepH h1 ids1).1 0 hdvalid
        rw [hded.1] at himpm
        rcases himpH : imputeStepH opts h1 (dedupeStepH h1 ids1).1 0
            with e | ⟨h3, ids3, fixed⟩
        · rcases himpP : imputeStep opts (dedupeStep data1).1 0 with e' | ⟨data3, fixed'⟩
          · rw [himpH, himpP] at himpm
            exact himpm
          · rw [himpH, himpP] at himpm
            simp at himpm
        · rcases himpP : imputeStep opts (dedupeStep data1).1 0 with e' | ⟨data3, fixed'⟩
          · rw [himpH, himpP] at himpm
            simp at himpm
          · rw [himpH, himpP] at himpm
            obtain ⟨hreads3, hfix, hval3⟩ := himpm
            dsimp only at hreads3 hfix hval3 ⊢
            have hout := outlierStepH_model opts h3 ids3 0
            rw [hreads3] at hout
            have houtfst : (outlierStepH opts h3 ids3 0).1.map (readH h3) =
                (outlierStep opts data3 0).1 := congrArg Prod.fst hout.1
            have houtsnd : (outlierStepH opts h3 ids3 0).2 = (outlierStep opts data3 0).2 :=
              congrArg Prod.snd hout.1
            have hco := coerceStepH_model opts stats1.columnsRenamed h3
              (outlierStepH opts h3 ids3 0).1
            rw [houtfst] at hco
            constructor
            · rw [hco, hstats1]
            · rw [hstats1, hfix, houtsnd, hded.2]

/-- C6: a completed `cleanData` run never mutates the raw dataset. In
the heap embedding the run only extends the heap with freshly allocated
rows: every raw reference still dereferences to the same row object
afterwards, so the row sequence and every cell of every raw row are
unchanged, while the run's cleaned dataset and stats are exactly those
the pure pipeline computes from the (unchanged) raw rows. -/
theorem c6_no_mutation (h : Heap) (rawIds : List Nat) (opts : Options)
    (h' : Heap) (outIds : List Nat) (st : Stats)
    (hvalid : ∀ i ∈ rawIds, i < h.length)
    (hok : cleanDataH h rawIds opts = Except.ok (h', outIds, st)) :
    (∃ ext, h' = h ++ ext) ∧
    (∀ i ∈ rawIds, readH h' i = readH h i) ∧
    cleanData (rawIds.map (readH h)) opts = Except.ok ⟨outIds.map (readH h'), st⟩ := by
  have hext : ∃ ext, h' = h ++ ext := by
    unfold cleanDataH at hok
    split at hok
    · exact absurd hok (by simp)
    · split at hok
      next => simp at hok
      next h1 ids1 stats1 hstd =>
        split at hok
        next => simp at hok
        next h3 ids3 fixed himp =>
          obtain ⟨ea, hea⟩ := standardizeH_ext hstd
          obtain ⟨eb, heb⟩ := imputeStepH_ext himp
          obtain ⟨ec, hec⟩ :=
            coerceStepH_ext opts stats1.columnsRenamed h3 (outlierStepH opts h3 ids3 0).1
          have h'eq := congrArg Prod.fst (Except.ok.inj hok)
          simp only at h'eq hea heb
          refine ⟨ea ++ (eb ++ ec), ?_⟩
          rw [← h'eq, hec, heb, hea]
          simp [List.append_assoc]
  obtain ⟨ext, hxt⟩ := hext
  have hm := cleanDataH_models h rawIds opts hvalid
  rw [hok] at hm
  refine ⟨⟨ext, hxt⟩, ?_, ?_⟩
  · intro i hi
    rw [hxt]
    exact readH_append h ext i (hvalid i hi)
  · rcases hP : cleanData (rawIds.map (readH h)) opts with e | res
    · rw [hP] at hm
      exact hm.elim
    · rw [hP] at hm
      obtain ⟨hdata, hstats⟩ := hm
      dsimp only at hdata hstats
      rw [hdata, hstats]

/-- Witness for C6: a one-row heap run with every option off extends
the heap by nothing, leaves the raw reference untouched, and the pure
pipeline agrees. -/
theorem c6_no_mutation_witness :
    (∃ ext, ([[("a", Value.str "1")]] : Heap) = [[("a", Value.str "1")]] ++ ext) ∧
    (∀ i ∈ [0], readH [[("a", Value.str "1")]] i = readH [[("a", Value.str "1")]] i) ∧
    cleanData ([0].map (readH [[("a", Value.str "1")]])) (optsOf Strategy.constant) =
      Except.ok ⟨[0].map (readH [[("a", Value.str "1")]]), ⟨1, 1, 0, 0, [], [], 0⟩⟩ :=
  c6_no_mutation [[("a", Value.str "1")]] [0] (optsOf Strategy.constant)
    [[("a", Value.str "1")]] [0] ⟨1, 1, 0, 0, [], [], 0⟩ (by decide) (by decide)
